import Mathlib

/-!
# Verification of the arbitrade python backend core

A shallow embedding, in Lean 4, of the execution/coordination core of the
`arbitrade` repository (`python_backend/app/services/`):

* `orderbook_feed.py` — local order-book reconstruction (`OrderbookBook`,
  `BybitOrderbookFeed.get_top_of_book`);
* `arbitrage_engine.py` — the per-pair tick decision and two-leg execution
  with rollback (`ArbitrageEngine._tick`, `_execute_arbitrage`,
  `_rollback_order`, `remove_pair`);
* `twap_engine.py` — the TWAP plan state machine, slice execution loop,
  per-slice saga rollback and the borrow-pool retry path
  (`TWAPEngine.start_plan/pause_plan/resume_plan/cancel_plan`,
  `_execute_twap`, `_rollback_successful_legs`, `_place_perp_order`,
  `_handle_borrowing_error`).

Python floats are modelled as `ℚ`; python dicts keyed by floats as
association lists with distinct keys (insertion order preserved, as in
python); the exchange is modelled as an explicit oracle of order outcomes,
one per order attempt, so every definition is executable.
-/

namespace Arbitrade

/-! ## Order Book Store (`app/services/orderbook_feed.py`) -/

/-- One side of a book: association list price ↦ qty, mirroring a python
`Dict[float, float]` (keys distinct, insertion order kept). -/
abbrev BookSide := List (ℚ × ℚ)

/-- `dict.keys()` of a side. -/
def sideKeys (s : BookSide) : List ℚ := s.map Prod.fst

/-- Python dict assignment `side[price] = qty`: overwrite in place when the
key is present, otherwise append. -/
def setLevel (s : BookSide) (p q : ℚ) : BookSide :=
  if p ∈ sideKeys s then s.map (fun x => if x.1 = p then (p, q) else x)
  else s ++ [(p, q)]

/-- Python `side.pop(price, None)`. -/
def delLevel (s : BookSide) (p : ℚ) : BookSide :=
  s.filter (fun x => decide (x.1 ≠ p))

/-- One side of `apply_snapshot` (src lines 25–36): start from empty and
insert every level whose qty is `> 0`. -/
def loadSide (entries : List (ℚ × ℚ)) : BookSide :=
  entries.foldl (fun s e => if 0 < e.2 then setLevel s e.1 e.2 else s) []

/-- One side of `apply_delta` (src lines 41–54): `qty ≤ 0` removes the
level, `qty > 0` upserts it. -/
def deltaSide (s : BookSide) (entries : List (ℚ × ℚ)) : BookSide :=
  entries.foldl (fun s e => if e.2 ≤ 0 then delLevel s e.1 else setLevel s e.1 e.2) s

/-- `sorted(keys, reverse=True)` — descending price order (bids). -/
def sortedDesc (l : List ℚ) : List ℚ := l.insertionSort (· ≥ ·)

/-- `sorted(keys)` — ascending price order (asks). -/
def sortedAsc (l : List ℚ) : List ℚ := l.insertionSort (· ≤ ·)

/-- `_trim`, bid side (src lines 60–62): when over depth, pop every price in
`sorted(keys, reverse=True)[depth:]`, i.e. keep the `depth` highest. -/
def trimBidSide (depth : Nat) (s : BookSide) : BookSide :=
  if depth < s.length then
    s.filter (fun x => decide (x.1 ∉ (sortedDesc (sideKeys s)).drop depth))
  else s

/-- `_trim`, ask side (src lines 63–68): the first inner loop (lines 64–66)
only executes `pass` and is a no-op; then pop every price in
`sorted(keys)[depth:]`, i.e. keep the `depth` lowest. -/
def trimAskSide (depth : Nat) (s : BookSide) : BookSide :=
  if depth < s.length then
    s.filter (fun x => decide (x.1 ∉ (sortedAsc (sideKeys s)).drop depth))
  else s

/-- `OrderbookBook` (src lines 15–73): per-(venue, instrument, depth) local
book. -/
structure OrderbookBook where
  depth : Nat
  bids : BookSide
  asks : BookSide
  u : Option Int
deriving Repr, DecidableEq

/-- `OrderbookBook.__init__`. -/
def OrderbookBook.init (depth : Nat) : OrderbookBook :=
  { depth := depth, bids := [], asks := [], u := none }

/-- `OrderbookBook._trim` applied to both sides. -/
def OrderbookBook.trim (b : OrderbookBook) : OrderbookBook :=
  { b with bids := trimBidSide b.depth b.bids, asks := trimAskSide b.depth b.asks }

/-- `apply_snapshot` just before its final `self._trim()` call. -/
def OrderbookBook.snapshotRaw (b : OrderbookBook) (bids asks : List (ℚ × ℚ))
    (u : Option Int) : OrderbookBook :=
  { b with bids := loadSide bids, asks := loadSide asks, u := u }

/-- `OrderbookBook.apply_snapshot` (src lines 24–38). -/
def OrderbookBook.apply_snapshot (b : OrderbookBook) (bids asks : List (ℚ × ℚ))
    (u : Option Int) : OrderbookBook :=
  (b.snapshotRaw bids asks u).trim

/-- `apply_delta` just before its final `self._trim()` call. -/
def OrderbookBook.deltaRaw (b : OrderbookBook) (bids asks : List (ℚ × ℚ))
    (u : Option Int) : OrderbookBook :=
  { b with bids := deltaSide b.bids bids, asks := deltaSide b.asks asks, u := u }

/-- `OrderbookBook.apply_delta` (src lines 40–56). -/
def OrderbookBook.apply_delta (b : OrderbookBook) (bids asks : List (ℚ × ℚ))
    (u : Option Int) : OrderbookBook :=
  (b.deltaRaw bids asks u).trim

/-- `OrderbookBook.best_bid_ask` (src lines 70–73): max bid key / min ask
key, `none` for an empty side. -/
def OrderbookBook.best_bid_ask (b : OrderbookBook) : Option ℚ × Option ℚ :=
  ((sideKeys b.bids).max?, (sideKeys b.asks).min?)

/-- One snapshot or delta message delivered to a book. -/
inductive BookOp where
  | snapshot (bids asks : List (ℚ × ℚ)) (u : Option Int)
  | delta (bids asks : List (ℚ × ℚ)) (u : Option Int)
deriving Repr

/-- Apply one message (the `handle_message` dispatch, src lines 133–136,
generalised to both message types as `apply_snapshot`/`apply_delta`). -/
def OrderbookBook.applyOp (b : OrderbookBook) : BookOp → OrderbookBook
  | .snapshot bids asks u => b.apply_snapshot bids asks u
  | .delta bids asks u => b.apply_delta bids asks u

/-- The same message without the final trim (the pre-trim book). -/
def OrderbookBook.applyOpRaw (b : OrderbookBook) : BookOp → OrderbookBook
  | .snapshot bids asks u => b.snapshotRaw bids asks u
  | .delta bids asks u => b.deltaRaw bids asks u

/-- Apply a whole feed of messages in order. -/
def OrderbookBook.applyOps (b : OrderbookBook) (ops : List BookOp) : OrderbookBook :=
  ops.foldl OrderbookBook.applyOp b

/-- `BybitOrderbookFeed.get_top_of_book` (src lines 148–154): look the book
up under (category, symbol, depth); a missing key yields `(none, none)`. -/
def get_top_of_book (books : List ((String × String × Nat) × OrderbookBook))
    (category symbol : String) (depth : Nat) : Option ℚ × Option ℚ :=
  match books.lookup (category, symbol, depth) with
  | none => (none, none)
  | some b => b.best_bid_ask

/-! ### Order-book side invariants -/

/-- Every stored level has positive quantity. -/
def qtyPos (s : BookSide) : Prop := ∀ e ∈ s, 0 < e.2

/-- The price keys are pairwise distinct (true of any python dict). -/
def keysNodup (s : BookSide) : Prop := (sideKeys s).Nodup

theorem sideKeys_setLevel_of_mem {s : BookSide} {p : ℚ} (q : ℚ) (h : p ∈ sideKeys s) :
    sideKeys (setLevel s p q) = sideKeys s := by
  unfold setLevel
  rw [if_pos h]
  unfold sideKeys
  rw [List.map_map]
  refine List.map_congr_left (fun x _ => ?_)
  by_cases hx : x.1 = p
  · simp [hx]
  · simp [hx]

theorem sideKeys_setLevel_of_not_mem {s : BookSide} {p : ℚ} (q : ℚ) (h : p ∉ sideKeys s) :
    sideKeys (setLevel s p q) = sideKeys s ++ [p] := by
  unfold setLevel
  rw [if_neg h]
  simp [sideKeys]

theorem keysNodup_setLevel {s : BookSide} (p q : ℚ) (h : keysNodup s) :
    keysNodup (setLevel s p q) := by
  unfold keysNodup
  by_cases hp : p ∈ sideKeys s
  · rw [sideKeys_setLevel_of_mem q hp]; exact h
  · rw [sideKeys_setLevel_of_not_mem q hp, List.nodup_append]
    refine ⟨h, List.nodup_singleton p, fun a ha hb => ?_⟩
    simp only [List.mem_singleton] at hb
    exact hp (hb ▸ ha)

theorem qtyPos_setLevel {s : BookSide} {p q : ℚ} (h : qtyPos s) (hq : 0 < q) :
    qtyPos (setLevel s p q) := by
  unfold setLevel
  by_cases hp : p ∈ sideKeys s
  · rw [if_pos hp]
    intro e he
    rcases List.mem_map.mp he with ⟨x, hx, rfl⟩
    by_cases hx1 : x.1 = p
    · simpa [hx1] using hq
    · simpa [hx1] using h x hx
  · rw [if_neg hp]
    intro e he
    rcases List.mem_append.mp he with h1 | h2
    · exact h e h1
    · simp only [List.mem_singleton] at h2
      subst h2; exact hq

theorem qtyPos_of_sublist {s t : BookSide} (h : s.Sublist t) (ht : qtyPos t) : qtyPos s :=
  fun e he => ht e (h.subset he)

theorem keysNodup_of_sublist {s t : BookSide} (h : s.Sublist t) (ht : keysNodup t) :
    keysNodup s :=
  List.Nodup.sublist (h.map Prod.fst) ht

theorem delLevel_sublist (s : BookSide) (p : ℚ) : (delLevel s p).Sublist s :=
  List.filter_sublist s

/-- Invariant preservation along a `foldl` (used for the per-entry loops of
`apply_snapshot` / `apply_delta`). -/
theorem foldl_inv {α σ : Type _} {P : σ → Prop} {f : σ → α → σ}
    (hf : ∀ s a, P s → P (f s a)) :
    ∀ (l : List α) (s : σ), P s → P (l.foldl f s)
  | [], _, hs => hs
  | a :: l, s, hs => foldl_inv hf l (f s a) (hf s a hs)

theorem loadSide_inv (entries : List (ℚ × ℚ)) :
    qtyPos (loadSide entries) ∧ keysNodup (loadSide entries) := by
  unfold loadSide
  refine foldl_inv (P := fun s => qtyPos s ∧ keysNodup s) ?_ entries []
    ⟨fun e he => absurd he (List.not_mem_nil e), List.nodup_nil⟩
  rintro s e ⟨h1, h2⟩
  by_cases he : 0 < e.2
  · rw [if_pos he]; exact ⟨qtyPos_setLevel h1 he, keysNodup_setLevel _ _ h2⟩
  · rw [if_neg he]; exact ⟨h1, h2⟩

theorem deltaSide_inv {s : BookSide} (entries : List (ℚ × ℚ))
    (h : qtyPos s ∧ keysNodup s) :
    qtyPos (deltaSide s entries) ∧ keysNodup (deltaSide s entries) := by
  unfold deltaSide
  refine foldl_inv (P := fun s => qtyPos s ∧ keysNodup s) ?_ entries s h
  rintro t e ⟨h1, h2⟩
  by_cases he : e.2 ≤ 0
  · rw [if_pos he]
    exact ⟨qtyPos_of_sublist (delLevel_sublist t e.1) h1,
      keysNodup_of_sublist (delLevel_sublist t e.1) h2⟩
  · rw [if_neg he]
    exact ⟨qtyPos_setLevel h1 (lt_of_not_ge he), keysNodup_setLevel _ _ h2⟩

/-! ### Trim correctness -/

theorem trimCore_keys (s : BookSide) (L : List ℚ) :
    sideKeys (s.filter (fun x => decide (x.1 ∉ L)))
      = (sideKeys s).filter (fun k => decide (k ∉ L)) := by
  unfold sideKeys
  induction s with
  | nil => simp
  | cons a t ih => by_cases h : a.1 ∈ L <;> simp [h] <;> simpa using ih

theorem trimCore_keys_subset_take {d : Nat} {s : BookSide} {S : List ℚ}
    (hperm : S.Perm (sideKeys s)) :
    ∀ k ∈ sideKeys (s.filter (fun x => decide (x.1 ∉ S.drop d))), k ∈ S.take d := by
  intro k hk
  rw [trimCore_keys] at hk
  rcases List.mem_filter.mp hk with ⟨hks, hkd⟩
  rw [decide_eq_true_eq] at hkd
  have hkS : k ∈ S := hperm.mem_iff.mpr hks
  rw [← List.take_append_drop d S] at hkS
  rcases List.mem_append.mp hkS with h | h
  · exact h
  · exact absurd h hkd

theorem trimCore_take_subset_keys {d : Nat} {s : BookSide} {S : List ℚ}
    (hperm : S.Perm (sideKeys s)) (hnd : keysNodup s) :
    ∀ k ∈ S.take d, k ∈ sideKeys (s.filter (fun x => decide (x.1 ∉ S.drop d))) := by
  intro k hk
  have hSnd : S.Nodup := (hperm.nodup_iff).mpr hnd
  have hks : k ∈ sideKeys s := hperm.mem_iff.mp (List.take_subset d S hk)
  have hkd : k ∉ S.drop d := by
    intro hkd
    have hdis : (S.take d).Disjoint (S.drop d) := by
      rw [← List.take_append_drop d S, List.nodup_append] at hSnd
      exact hSnd.2.2
    exact hdis hk hkd
  rw [trimCore_keys]
  exact List.mem_filter.mpr ⟨hks, by rw [decide_eq_true_eq]; exact hkd⟩

theorem trimCore_length_le {d : Nat} {s : BookSide} {S : List ℚ}
    (hperm : S.Perm (sideKeys s)) (hnd : keysNodup s) :
    (s.filter (fun x => decide (x.1 ∉ S.drop d))).length ≤ d := by
  have h1 : (sideKeys (s.filter (fun x => decide (x.1 ∉ S.drop d)))).Nodup :=
    keysNodup_of_sublist (List.filter_sublist s) hnd
  have h2 := (h1.subperm (trimCore_keys_subset_take hperm)).length_le
  have h3 : (s.filter (fun x => decide (x.1 ∉ S.drop d))).length
      = (sideKeys (s.filter (fun x => decide (x.1 ∉ S.drop d)))).length :=
    (List.length_map _ _).symm
  exact h3 ▸ le_trans h2 (List.length_take_le d S)

theorem trimCore_length_eq {d : Nat} {s : BookSide} {S : List ℚ}
    (hperm : S.Perm (sideKeys s)) (hnd : keysNodup s) (hd : d ≤ s.length) :
    (s.filter (fun x => decide (x.1 ∉ S.drop d))).length = d := by
  have h1 : (sideKeys (s.filter (fun x => decide (x.1 ∉ S.drop d)))).Nodup :=
    keysNodup_of_sublist (List.filter_sublist s) hnd
  have hSnd : S.Nodup := (hperm.nodup_iff).mpr hnd
  have htake : (S.take d).Nodup := List.Nodup.sublist (List.take_sublist d S) hSnd
  have hmemiff : ∀ k, k ∈ sideKeys (s.filter (fun x => decide (x.1 ∉ S.drop d)))
      ↔ k ∈ S.take d :=
    fun k => ⟨fun h => trimCore_keys_subset_take hperm k h,
      fun h => trimCore_take_subset_keys hperm hnd k h⟩
  have hpm : (sideKeys (s.filter (fun x => decide (x.1 ∉ S.drop d)))).Perm (S.take d) :=
    (List.perm_ext_iff_of_nodup h1 htake).mpr hmemiff
  have hlen : (s.filter (fun x => decide (x.1 ∉ S.drop d))).length
      = (sideKeys (s.filter (fun x => decide (x.1 ∉ S.drop d)))).length :=
    (List.length_map _ _).symm
  rw [hlen, hpm.length_eq, List.length_take]
  have hS : S.length = s.length := by
    rw [hperm.length_eq]
    exact List.length_map _ _
  omega

theorem trimCore_best {d : Nat} {s : BookSide} {S : List ℚ} {r : ℚ → ℚ → Prop}
    (hperm : S.Perm (sideKeys s)) (hnd : keysNodup s) (hsort : S.Pairwise r) :
    ∀ x ∈ s.filter (fun x => decide (x.1 ∉ S.drop d)), ∀ y ∈ s,
      y ∉ s.filter (fun x => decide (x.1 ∉ S.drop d)) → r x.1 y.1 ∧ x.1 ≠ y.1 := by
  intro x hx y hy hyk
  have hxk : x.1 ∈ S.take d :=
    trimCore_keys_subset_take hperm x.1 (List.mem_map_of_mem Prod.fst hx)
  have hyd : y.1 ∈ S.drop d := by
    by_contra hyd
    exact hyk (List.mem_filter.mpr ⟨hy, by rw [decide_eq_true_eq]; exact hyd⟩)
  constructor
  · rw [← List.take_append_drop d S, List.pairwise_append] at hsort
    exact hsort.2.2 _ hxk _ hyd
  · intro he
    have hSnd : S.Nodup := (hperm.nodup_iff).mpr hnd
    rw [← List.take_append_drop d S, List.nodup_append] at hSnd
    exact hSnd.2.2 hxk (he ▸ hyd)

theorem sortedDesc_perm (l : List ℚ) : (sortedDesc l).Perm l :=
  List.perm_insertionSort _ l

theorem sortedAsc_perm (l : List ℚ) : (sortedAsc l).Perm l :=
  List.perm_insertionSort _ l

theorem sortedDesc_pairwise (l : List ℚ) : (sortedDesc l).Pairwise (· ≥ ·) :=
  List.sorted_insertionSort _ l

theorem sortedAsc_pairwise (l : List ℚ) : (sortedAsc l).Pairwise (· ≤ ·) :=
  List.sorted_insertionSort _ l

theorem trimBidSide_sublist (d : Nat) (s : BookSide) : (trimBidSide d s).Sublist s := by
  unfold trimBidSide
  split
  · exact List.filter_sublist s
  · exact List.Sublist.refl s

theorem trimAskSide_sublist (d : Nat) (s : BookSide) : (trimAskSide d s).Sublist s := by
  unfold trimAskSide
  split
  · exact List.filter_sublist s
  · exact List.Sublist.refl s

theorem trimBidSide_length_le {d : Nat} {s : BookSide} (hnd : keysNodup s) :
    (trimBidSide d s).length ≤ d := by
  unfold trimBidSide
  by_cases h : d < s.length
  · rw [if_pos h]
    exact trimCore_length_le (sortedDesc_perm _) hnd
  · rw [if_neg h]
    exact Nat.le_of_not_lt h

theorem trimAskSide_length_le {d : Nat} {s : BookSide} (hnd : keysNodup s) :
    (trimAskSide d s).length ≤ d := by
  unfold trimAskSide
  by_cases h : d < s.length
  · rw [if_pos h]
    exact trimCore_length_le (sortedAsc_perm _) hnd
  · rw [if_neg h]
    exact Nat.le_of_not_lt h

theorem trimBidSide_length_eq {d : Nat} {s : BookSide} (hnd : keysNodup s)
    (hd : d ≤ s.length) : (trimBidSide d s).length = d := by
  unfold trimBidSide
  by_cases h : d < s.length
  · rw [if_pos h]
    exact trimCore_length_eq (sortedDesc_perm _) hnd hd
  · rw [if_neg h]
    omega

theorem trimAskSide_length_eq {d : Nat} {s : BookSide} (hnd : keysNodup s)
    (hd : d ≤ s.length) : (trimAskSide d s).length = d := by
  unfold trimAskSide
  by_cases h : d < s.length
  · rw [if_pos h]
    exact trimCore_length_eq (sortedAsc_perm _) hnd hd
  · rw [if_neg h]
    omega

/-- Every discarded bid level sits strictly below every retained one. -/
theorem trimBidSide_best {d : Nat} {s : BookSide} (hnd : keysNodup s) :
    ∀ x ∈ trimBidSide d s, ∀ y ∈ s, y ∉ trimBidSide d s → y.1 < x.1 := by
  unfold trimBidSide
  by_cases h : d < s.length
  · rw [if_pos h]
    intro x hx y hy hyk
    have := trimCore_best (sortedDesc_perm _) hnd (sortedDesc_pairwise _) x hx y hy hyk
    exact lt_of_le_of_ne this.1 (Ne.symm this.2)
  · rw [if_neg h]
    intro x _ y hy hyk
    exact absurd hy hyk

/-- Every discarded ask level sits strictly above every retained one. -/
theorem trimAskSide_best {d : Nat} {s : BookSide} (hnd : keysNodup s) :
    ∀ x ∈ trimAskSide d s, ∀ y ∈ s, y ∉ trimAskSide d s → x.1 < y.1 := by
  unfold trimAskSide
  by_cases h : d < s.length
  · rw [if_pos h]
    intro x hx y hy hyk
    have := trimCore_best (sortedAsc_perm _) hnd (sortedAsc_pairwise _) x hx y hy hyk
    exact lt_of_le_of_ne this.1 this.2
  · rw [if_neg h]
    intro x _ y hy hyk
    exact absurd hy hyk

theorem trimBidSide_length {d : Nat} {s : BookSide} (hnd : keysNodup s) :
    (trimBidSide d s).length = min d s.length := by
  by_cases h : d < s.length
  · have := trimBidSide_length_eq hnd (Nat.le_of_lt h)
    omega
  · unfold trimBidSide
    rw [if_neg h]
    omega

theorem trimAskSide_length {d : Nat} {s : BookSide} (hnd : keysNodup s) :
    (trimAskSide d s).length = min d s.length := by
  by_cases h : d < s.length
  · have := trimAskSide_length_eq hnd (Nat.le_of_lt h)
    omega
  · unfold trimAskSide
    rw [if_neg h]
    omega

/-! ### Book-level invariant -/

/-- Both per-side invariants. -/
def SideInv (s : BookSide) : Prop := qtyPos s ∧ keysNodup s

theorem sideInv_of_sublist {s t : BookSide} (h : s.Sublist t) (ht : SideInv t) : SideInv s :=
  ⟨qtyPos_of_sublist h ht.1, keysNodup_of_sublist h ht.2⟩

theorem applyOpRaw_depth (b : OrderbookBook) (op : BookOp) :
    (b.applyOpRaw op).depth = b.depth := by
  cases op <;> rfl

theorem applyOp_depth (b : OrderbookBook) (op : BookOp) :
    (b.applyOp op).depth = b.depth := by
  cases op <;> rfl

theorem applyOps_depth (b : OrderbookBook) (ops : List BookOp) :
    (b.applyOps ops).depth = b.depth := by
  induction ops generalizing b with
  | nil => rfl
  | cons op ops ih => rw [OrderbookBook.applyOps, List.foldl_cons]
                      exact (ih _).trans (applyOp_depth b op)

theorem applyOp_eq_trim_raw (b : OrderbookBook) (op : BookOp) :
    b.applyOp op = (b.applyOpRaw op).trim := by
  cases op <;> rfl

theorem applyOpRaw_bids_inv (b : OrderbookBook) (op : BookOp) (hb : SideInv b.bids) :
    SideInv (b.applyOpRaw op).bids := by
  cases op with
  | snapshot bids asks u => exact loadSide_inv bids
  | delta bids asks u => exact deltaSide_inv bids hb

theorem applyOpRaw_asks_inv (b : OrderbookBook) (op : BookOp) (hb : SideInv b.asks) :
    SideInv (b.applyOpRaw op).asks := by
  cases op with
  | snapshot bids asks u => exact loadSide_inv asks
  | delta bids asks u => exact deltaSide_inv asks hb

theorem applyOps_sideInv (depth : Nat) (ops : List BookOp) :
    SideInv ((OrderbookBook.init depth).applyOps ops).bids ∧
      SideInv ((OrderbookBook.init depth).applyOps ops).asks := by
  unfold OrderbookBook.applyOps
  refine foldl_inv (P := fun b : OrderbookBook => SideInv b.bids ∧ SideInv b.asks) ?_ ops _ ?_
  · rintro b op ⟨h1, h2⟩
    rw [applyOp_eq_trim_raw]
    constructor
    · exact sideInv_of_sublist (trimBidSide_sublist _ _) (applyOpRaw_bids_inv b op h1)
    · exact sideInv_of_sublist (trimAskSide_sublist _ _) (applyOpRaw_asks_inv b op h2)
  · constructor <;>
      exact ⟨fun e he => absurd he (List.not_mem_nil e), List.nodup_nil⟩

/-- **C8.** For every sequence of snapshot/delta applications to a book,
after each application: no retained level has quantity ≤ 0, each side holds
at most `depth` entries — exactly `min depth n` entries when the pre-trim
side had `n` — and the retained entries are the best prices of the side
(every dropped pre-trim bid is strictly below every retained bid, every
dropped pre-trim ask strictly above every retained ask). -/
theorem orderbook_apply_invariant (depth : Nat) (ops : List BookOp) (op : BookOp) :
    qtyPos (((OrderbookBook.init depth).applyOps ops).applyOp op).bids ∧
    qtyPos (((OrderbookBook.init depth).applyOps ops).applyOp op).asks ∧
    (((OrderbookBook.init depth).applyOps ops).applyOp op).bids.length
      = min depth (((OrderbookBook.init depth).applyOps ops).applyOpRaw op).bids.length ∧
    (((OrderbookBook.init depth).applyOps ops).applyOp op).asks.length
      = min depth (((OrderbookBook.init depth).applyOps ops).applyOpRaw op).asks.length ∧
    (((OrderbookBook.init depth).applyOps ops).applyOp op).bids.length ≤ depth ∧
    (((OrderbookBook.init depth).applyOps ops).applyOp op).asks.length ≤ depth ∧
    (((OrderbookBook.init depth).applyOps ops).applyOp op).bids.Sublist
      (((OrderbookBook.init depth).applyOps ops).applyOpRaw op).bids ∧
    (((OrderbookBook.init depth).applyOps ops).applyOp op).asks.Sublist
      (((OrderbookBook.init depth).applyOps ops).applyOpRaw op).asks ∧
    (∀ x ∈ (((OrderbookBook.init depth).applyOps ops).applyOp op).bids,
      ∀ y ∈ (((OrderbookBook.init depth).applyOps ops).applyOpRaw op).bids,
        y ∉ (((OrderbookBook.init depth).applyOps ops).applyOp op).bids → y.1 < x.1) ∧
    (∀ x ∈ (((OrderbookBook.init depth).applyOps ops).applyOp op).asks,
      ∀ y ∈ (((OrderbookBook.init depth).applyOps ops).applyOpRaw op).asks,
        y ∉ (((OrderbookBook.init depth).applyOps ops).applyOp op).asks → x.1 < y.1) := by
  have hb := applyOps_sideInv depth ops
  have hraw_b := applyOpRaw_bids_inv _ op hb.1
  have hraw_a := applyOpRaw_asks_inv _ op hb.2
  have hd : ((OrderbookBook.init depth).applyOps ops).depth = depth :=
    applyOps_depth _ ops
  have hrd : (((OrderbookBook.init depth).applyOps ops).applyOpRaw op).depth = depth :=
    (applyOpRaw_depth _ op).trans hd
  rw [applyOp_eq_trim_raw]
  unfold OrderbookBook.trim
  rw [hrd]
  refine ⟨?_, ?_, ?_, ?_, ?_, ?_, ?_, ?_, ?_, ?_⟩
  · exact (sideInv_of_sublist (trimBidSide_sublist _ _) hraw_b).1
  · exact (sideInv_of_sublist (trimAskSide_sublist _ _) hraw_a).1
  · exact trimBidSide_length hraw_b.2
  · exact trimAskSide_length hraw_a.2
  · exact (trimBidSide_length hraw_b.2).le.trans (Nat.min_le_left _ _)
  · exact (trimAskSide_length hraw_a.2).le.trans (Nat.min_le_left _ _)
  · exact trimBidSide_sublist _ _
  · exact trimAskSide_sublist _ _
  · exact trimBidSide_best hraw_b.2
  · exact trimAskSide_best hraw_a.2

/-- Witness for the best-price part of C8: at depth 1, after a snapshot with
bids 100 and 99 and asks 101 and 102, the dropped bid 99 is strictly below
the retained bid 100 and the dropped ask 102 strictly above the retained
ask 101. -/
theorem orderbook_apply_invariant_witness : (99 : ℚ) < 100 ∧ (101 : ℚ) < 102 := by
  have h := orderbook_apply_invariant 1 [] (BookOp.snapshot [(100, 1), (99, 2)]
    [(101, 1), (102, 2)] none)
  refine ⟨h.2.2.2.2.2.2.2.2.1 (100, 1) ?_ (99, 2) ?_ ?_,
    h.2.2.2.2.2.2.2.2.2 (101, 1) ?_ (102, 2) ?_ ?_⟩ <;> decide

/-! ### Best bid / best ask -/

theorem ratAntisymm : Std.Antisymm (fun x1 x2 : ℚ => x1 ≤ x2) :=
  ⟨@fun _ _ h h' => le_antisymm h h'⟩

theorem rat_max?_eq_some_iff {l : List ℚ} {m : ℚ} :
    l.max? = some m ↔ m ∈ l ∧ ∀ b ∈ l, b ≤ m :=
  @List.max?_eq_some_iff ℚ m _ _ ratAntisymm (fun a => le_refl a) (fun a b => max_choice a b)
    (fun _ _ _ => max_le_iff) l

theorem rat_min?_eq_some_iff {l : List ℚ} {m : ℚ} :
    l.min? = some m ↔ m ∈ l ∧ ∀ b ∈ l, m ≤ b :=
  @List.min?_eq_some_iff ℚ m _ _ ratAntisymm (fun a => le_refl a) (fun a b => min_choice a b)
    (fun _ _ _ => le_min_iff) l

/-- **C9.** `best_bid_ask` returns the maximum bid price and the minimum ask
price, `none` for an empty side; `get_top_of_book` returns `(none, none)`
for a key with no book; and the concrete depth-1 snapshot of the spec
returns `(100, 101)`. -/
theorem best_bid_ask_spec :
    (∀ b : OrderbookBook,
      (b.best_bid_ask.1 = none ↔ b.bids = []) ∧
      (b.best_bid_ask.2 = none ↔ b.asks = []) ∧
      (∀ m : ℚ, b.best_bid_ask.1 = some m ↔
        m ∈ sideKeys b.bids ∧ ∀ k ∈ sideKeys b.bids, k ≤ m) ∧
      (∀ m : ℚ, b.best_bid_ask.2 = some m ↔
        m ∈ sideKeys b.asks ∧ ∀ k ∈ sideKeys b.asks, m ≤ k)) ∧
    (∀ (books : List ((String × String × Nat) × OrderbookBook)) (cat sym : String) (d : Nat),
      books.lookup (cat, sym, d) = none → get_top_of_book books cat sym d = (none, none)) ∧
    ((OrderbookBook.init 1).apply_snapshot [(100, 1), (99, 2)] [(101, 1), (102, 2)]
      none).best_bid_ask = (some 100, some 101) := by
  refine ⟨fun b => ⟨?_, ?_, fun m => rat_max?_eq_some_iff, fun m => rat_min?_eq_some_iff⟩,
    ?_, by decide⟩
  · rw [OrderbookBook.best_bid_ask]
    simp only [List.max?_eq_none_iff, sideKeys, List.map_eq_nil_iff]
  · rw [OrderbookBook.best_bid_ask]
    simp only [List.min?_eq_none_iff, sideKeys, List.map_eq_nil_iff]
  · intro books cat sym d h
    rw [get_top_of_book, h]

/-- Witness for C9: the store with no books returns `(none, none)` for any
key, and the spec's concrete snapshot example evaluates as claimed. -/
theorem best_bid_ask_spec_witness :
    get_top_of_book [] "spot" "BTCUSDT" 1 = (none, none) ∧
    ((OrderbookBook.init 1).apply_snapshot [(100, 1), (99, 2)] [(101, 1), (102, 2)]
      none).best_bid_ask = (some 100, some 101) :=
  ⟨best_bid_ask_spec.2.1 [] "spot" "BTCUSDT" 1 (by decide), best_bid_ask_spec.2.2⟩

/-! ## Arbitrage Engine (`app/services/arbitrage_engine.py`) -/

/-- Order direction, the `'buy' | 'sell'` strings of the source. -/
inductive Side where
  | buy
  | sell
deriving Repr, DecidableEq

/-- `Leg` dataclass (src lines 20–26). -/
structure Leg where
  exchange : String
  symbol : String
  type : String
  side : Side
deriving Repr, DecidableEq

/-- `PairConfig` dataclass (src lines 28–37). -/
structure PairConfig where
  leg1 : Leg
  leg2 : Leg
  threshold : ℚ
  qty : ℚ
  totalAmount : ℚ
  enabled : Bool := true
  max_execs : Nat := 1
deriving Repr, DecidableEq

/-- `OrderResult` (twap_engine src lines 33–39, also used by the arbitrage
engine). -/
structure OrderResult where
  success : Bool
  price : Option ℚ
  order_id : Option String
  error_message : Option String := none
deriving Repr, DecidableEq

/-- The per-pair tick decision of `_tick` (src lines 244–318), starting from
the resolved bid/ask of both legs: `none` when the pair is skipped because
an executable price is ≤ 0, otherwise `some trigger`. The three
`should_trigger` reassignments of the source (lines 301–306) are modelled as
the same sequence of overwrites. -/
def tickDecision (cfg : PairConfig) (leg1_bid leg1_ask leg2_bid leg2_ask : ℚ)
    (execCount : Nat) (executing : Bool) : Option Bool :=
  let leg1_exec := if cfg.leg1.side = Side.buy then leg1_ask else leg1_bid
  let leg2_exec := if cfg.leg2.side = Side.buy then leg2_ask else leg2_bid
  if leg1_exec ≤ 0 ∨ leg2_exec ≤ 0 then none
  else
    let spread_pct := (leg2_exec - leg1_exec) / leg1_exec * 100
    let should0 := decide (spread_pct ≥ cfg.threshold)
    let should1 := if cfg.max_execs ≤ execCount then false else should0
    let should2 := if executing then false else should1
    some should2

/-- One record of `self._executions_history[pair_id]` (src lines 357–376),
restricted to the fields the claims mention. -/
structure ExecRecord where
  pairId : String
  qty : ℚ
  leg1_order : Option String
  leg2_order : Option String
deriving Repr, DecidableEq

/-- The mutable state of `ArbitrageEngine` touched by `_execute_arbitrage`. -/
structure ArbState where
  pairs : List (String × PairConfig)
  executions_count : List (String × Nat)
  executing_pairs : List String
  executions_history : List (String × List ExecRecord)
deriving Repr, DecidableEq

/-- Python dict assignment `d[k] = v` for string keys. -/
def dictSet {β : Type} (l : List (String × β)) (k : String) (v : β) :
    List (String × β) :=
  if k ∈ l.map Prod.fst then l.map (fun x => if x.1 = k then (k, v) else x)
  else l ++ [(k, v)]

/-- `self._executions_count.get(pair_id, 0)`. -/
def countGet (l : List (String × Nat)) (k : String) : Nat :=
  (l.lookup k).getD 0

/-- Python `set.add`. -/
def setAdd (l : List String) (k : String) : List String :=
  if k ∈ l then l else k :: l

/-- Python `set.discard` / `del d[k]` / `d.pop(k, None)`. -/
def setDiscard (l : List String) (k : String) : List String :=
  l.filter (fun x => decide (x ≠ k))

/-- `ArbitrageEngine.remove_pair` (src lines 114–121): drop the pair, its
counter and its in-flight lock; the history is kept. -/
def remove_pair (st : ArbState) (pid : String) : ArbState :=
  { st with
    pairs := st.pairs.filter (fun x => decide (x.1 ≠ pid)),
    executions_count := st.executions_count.filter (fun x => decide (x.1 ≠ pid)),
    executing_pairs := setDiscard st.executing_pairs pid }

/-- `_rollback_order`'s reverse leg (src lines 494–504): same
venue/instrument/class, inverse direction. -/
def reverseLeg (leg : Leg) : Leg :=
  { leg with side := if leg.side = Side.buy then Side.sell else Side.buy }

/-- `history.setdefault(pair_id, []).append(record)` (src lines 357–358). -/
def appendHistory (l : List (String × List ExecRecord)) (k : String)
    (r : ExecRecord) : List (String × List ExecRecord) :=
  dictSet l k ((l.lookup k).getD [] ++ [r])

/-- `_execute_arbitrage` (src lines 322–429) as a pure function over the
engine state and an oracle `resp` giving the result of the i-th order placed
during this execution (`_place_order` catches every exception internally and
returns a failure `OrderResult`, so no exception escapes to the outer
`try`). Returns the new state and the trace of orders placed, in placement
order, as (leg, qty) pairs; the `finally` block's lock release is the
`setDiscard` applied on every exit path. -/
def execute_arbitrage (st : ArbState) (pid : String) (cfg : PairConfig)
    (resp : Nat → OrderResult) : ArbState × List (Leg × ℚ) :=
  let st0 : ArbState := { st with executing_pairs := setAdd st.executing_pairs pid }
  let r1 := resp 0
  if r1.success = false then
    ({ st0 with executing_pairs := setDiscard st0.executing_pairs pid },
      [(cfg.leg1, cfg.qty)])
  else
    let r2 := resp 1
    if r2.success = false then
      ({ st0 with executing_pairs := setDiscard st0.executing_pairs pid },
        [(cfg.leg1, cfg.qty), (cfg.leg2, cfg.qty), (reverseLeg cfg.leg1, cfg.qty)])
    else
      let st1 : ArbState :=
        { st0 with executions_count :=
            dictSet st0.executions_count pid (countGet st0.executions_count pid + 1) }
      let rec1 : ExecRecord :=
        { pairId := pid, qty := cfg.qty, leg1_order := r1.order_id,
          leg2_order := r2.order_id }
      let st2 : ArbState :=
        { st1 with executions_history := appendHistory st1.executions_history pid rec1 }
      let st3 : ArbState :=
        if cfg.max_execs ≤ countGet st2.executions_count pid then remove_pair st2 pid
        else st2
      ({ st3 with executing_pairs := setDiscard st3.executing_pairs pid },
        [(cfg.leg1, cfg.qty), (cfg.leg2, cfg.qty)])

/-- **C5.** On a tick, each leg's executable price is the ask for a buy leg
and the bid for a sell leg; the pair is skipped exactly when either
executable price is ≤ 0; and execution triggers exactly when
`spreadPct = (leg2Exec − leg1Exec) / leg1Exec × 100` is ≥ the threshold,
the execution count is below the configured maximum, and the pair is not
already in-flight. -/
theorem tick_decision_spec (cfg : PairConfig) (b1 a1 b2 a2 : ℚ) (n : Nat) (ex : Bool) :
    (tickDecision cfg b1 a1 b2 a2 n ex = none ↔
      (if cfg.leg1.side = Side.buy then a1 else b1) ≤ 0 ∨
      (if cfg.leg2.side = Side.buy then a2 else b2) ≤ 0) ∧
    (tickDecision cfg b1 a1 b2 a2 n ex = some true ↔
      (0 < (if cfg.leg1.side = Side.buy then a1 else b1) ∧
       0 < (if cfg.leg2.side = Side.buy then a2 else b2)) ∧
      ((if cfg.leg2.side = Side.buy then a2 else b2) -
          (if cfg.leg1.side = Side.buy then a1 else b1)) /
          (if cfg.leg1.side = Side.buy then a1 else b1) * 100 ≥ cfg.threshold ∧
      n < cfg.max_execs ∧ ex = false) := by
  unfold tickDecision
  by_cases h : (if cfg.leg1.side = Side.buy then a1 else b1) ≤ 0 ∨
      (if cfg.leg2.side = Side.buy then a2 else b2) ≤ 0
  · rw [if_pos h]
    refine ⟨by simpa using h, ?_⟩
    constructor
    · intro hc; exact absurd hc (by simp)
    · rintro ⟨⟨hp1, hp2⟩, -⟩
      rcases h with h | h
      · exact absurd h (not_le.mpr hp1)
      · exact absurd h (not_le.mpr hp2)
  · rw [if_neg h]
    push_neg at h
    refine ⟨⟨fun hc => absurd hc (by simp), fun hd => ?_⟩, ?_⟩
    · rcases hd with hd | hd
      · exact absurd hd (not_le.mpr h.1)
      · exact absurd hd (not_le.mpr h.2)
    rw [Option.some_inj]
    by_cases hex : ex
    · subst hex
      simp only [if_true, if_pos rfl]
      constructor
      · intro hc; exact absurd hc (by simp)
      · rintro ⟨-, -, -, hfalse⟩
        exact absurd hfalse (by simp)
    · have hex' : ex = false := by simpa using hex
      subst hex'
      simp only [if_false]
      by_cases hn : cfg.max_execs ≤ n
      · rw [if_pos hn]
        constructor
        · intro hc; exact absurd hc (by simp)
        · rintro ⟨-, -, hlt, -⟩
          omega
      · rw [if_neg hn]
        constructor
        · intro hd
          exact ⟨h, by simpa using hd, by omega, by trivial⟩
        · rintro ⟨-, hs, -, -⟩
          simpa using hs

/-! ### Assoc-list and lock helper lemmas -/

theorem lookup_filter_ne {β : Type} (l : List (String × β)) (k : String) :
    (l.filter (fun x => decide (x.1 ≠ k))).lookup k = none := by
  induction l with
  | nil => rfl
  | cons a t ih =>
    rcases a with ⟨a1, b⟩
    by_cases h : a1 = k
    · simp only [List.filter_cons]
      rw [if_neg (by simp [h])]
      exact ih
    · simp only [List.filter_cons]
      rw [if_pos (by simp [h])]
      rw [List.lookup_cons, show (k == a1) = false from beq_false_of_ne (Ne.symm h)]
      exact ih

theorem lookup_overwrite {β : Type} (l : List (String × β)) (k : String) (v : β)
    (h : k ∈ l.map Prod.fst) :
    (l.map (fun x => if x.1 = k then (k, v) else x)).lookup k = some v := by
  induction l with
  | nil => simp at h
  | cons a t ih =>
    rcases a with ⟨a1, b⟩
    by_cases ha : a1 = k
    · subst ha
      simp [List.lookup_cons]
    · have h' : k = a1 ∨ k ∈ t.map Prod.fst := by simpa using h
      have ht : k ∈ t.map Prod.fst := h'.resolve_left (fun he => ha he.symm)
      simp only [List.map_cons]
      rw [show ((if (a1, b).1 = k then (k, v) else (a1, b))) = (a1, b) from if_neg ha]
      rw [List.lookup_cons, show (k == a1) = false from beq_false_of_ne (Ne.symm ha)]
      exact ih ht

theorem lookup_append_single {β : Type} (l : List (String × β)) (k : String) (v : β)
    (h : k ∉ l.map Prod.fst) :
    (l ++ [(k, v)]).lookup k = some v := by
  induction l with
  | nil => simp [List.lookup_cons]
  | cons a t ih =>
    rcases a with ⟨a1, b⟩
    have ha : a1 ≠ k := fun he => h (by simp [he])
    have ht : k ∉ t.map Prod.fst := fun he => h (by simp; right; simpa using he)
    rw [List.cons_append]
    simp [List.lookup_cons, beq_false_of_ne (Ne.symm ha), ih ht]

theorem lookup_dictSet_self {β : Type} (l : List (String × β)) (k : String) (v : β) :
    (dictSet l k v).lookup k = some v := by
  unfold dictSet
  by_cases h : k ∈ l.map Prod.fst
  · rw [if_pos h]; exact lookup_overwrite l k v h
  · rw [if_neg h]; exact lookup_append_single l k v h

theorem setDiscard_setAdd (l : List String) (k : String) :
    setDiscard (setAdd l k) k = setDiscard l k := by
  unfold setAdd setDiscard
  by_cases h : k ∈ l
  · rw [if_pos h]
  · rw [if_neg h]
    simp [List.filter_cons]

theorem setDiscard_idem (l : List String) (k : String) :
    setDiscard (setDiscard l k) k = setDiscard l k := by
  unfold setDiscard
  rw [List.filter_filter]
  simp

theorem not_mem_setDiscard (l : List String) (k : String) : k ∉ setDiscard l k := by
  unfold setDiscard
  intro h
  have := (List.mem_filter.mp h).2
  simp at this

/-- **C6.** In a triggered execution, leg1's order is placed first; a leg1
failure aborts with no rollback and no counter/history/pair change; a leg1
success followed by a leg2 failure places exactly one compensating order
(the inverse of leg1, same venue/instrument/quantity); and on every exit
path the pair's in-flight mark is released. -/
theorem execute_arbitrage_order_rollback_spec (st : ArbState) (pid : String)
    (cfg : PairConfig) (resp : Nat → OrderResult) :
    ((execute_arbitrage st pid cfg resp).2.head? = some (cfg.leg1, cfg.qty)) ∧
    ((resp 0).success = false →
      (execute_arbitrage st pid cfg resp).2 = [(cfg.leg1, cfg.qty)] ∧
      (execute_arbitrage st pid cfg resp).1.pairs = st.pairs ∧
      (execute_arbitrage st pid cfg resp).1.executions_count = st.executions_count ∧
      (execute_arbitrage st pid cfg resp).1.executions_history = st.executions_history) ∧
    ((resp 0).success = true → (resp 1).success = false →
      (execute_arbitrage st pid cfg resp).2 =
        [(cfg.leg1, cfg.qty), (cfg.leg2, cfg.qty), (reverseLeg cfg.leg1, cfg.qty)] ∧
      (execute_arbitrage st pid cfg resp).1.executions_count = st.executions_count ∧
      (execute_arbitrage st pid cfg resp).1.executions_history = st.executions_history) ∧
    ((execute_arbitrage st pid cfg resp).1.executing_pairs
        = setDiscard st.executing_pairs pid ∧
      pid ∉ (execute_arbitrage st pid cfg resp).1.executing_pairs) := by
  unfold execute_arbitrage
  by_cases h1 : (resp 0).success = false
  · rw [if_pos h1]
    refine ⟨rfl, fun _ => ⟨rfl, rfl, rfl, rfl⟩, fun ht _ => absurd h1 (by simp [ht]), ?_, ?_⟩
    · exact setDiscard_setAdd st.executing_pairs pid
    · rw [setDiscard_setAdd]
      exact not_mem_setDiscard _ _
  · rw [if_neg h1]
    by_cases h2 : (resp 1).success = false
    · rw [if_pos h2]
      refine ⟨rfl, fun hf => absurd hf h1, fun _ _ => ⟨rfl, rfl, rfl⟩, ?_, ?_⟩
      · exact setDiscard_setAdd st.executing_pairs pid
      · rw [setDiscard_setAdd]
        exact not_mem_setDiscard _ _
    · rw [if_neg h2]
      dsimp only
      refine ⟨rfl, fun hf => absurd hf h1, fun _ hf => absurd hf h2, ?_, ?_⟩
      · by_cases hc : cfg.max_execs ≤
            countGet (dictSet st.executions_count pid
              (countGet st.executions_count pid + 1)) pid
        · rw [if_pos hc]
          show setDiscard (setDiscard (setAdd st.executing_pairs pid) pid) pid = _
          rw [setDiscard_idem]
          exact setDiscard_setAdd st.executing_pairs pid
        · rw [if_neg hc]
          exact setDiscard_setAdd st.executing_pairs pid
      · by_cases hc : cfg.max_execs ≤
            countGet (dictSet st.executions_count pid
              (countGet st.executions_count pid + 1)) pid
        · rw [if_pos hc]
          show pid ∉ setDiscard (setDiscard (setAdd st.executing_pairs pid) pid) pid
          exact not_mem_setDiscard _ _
        · rw [if_neg hc]
          rw [setDiscard_setAdd]
          exact not_mem_setDiscard _ _

/-- Witness for C6: a concrete execution in which leg1 succeeds and leg2
fails places leg1, then leg2, then exactly one compensating order — the
inverse of leg1 — and ends with the in-flight mark clear. -/
theorem execute_arbitrage_order_rollback_witness :
    (execute_arbitrage ⟨[], [], [], []⟩ "p"
        ⟨⟨"bybit", "BTCUSDT", "spot", Side.buy⟩,
          ⟨"bybit", "BTCUSDT", "linear", Side.sell⟩, 0, 1, 1, true, 1⟩
        (fun n => if n = 0 then ⟨true, none, some "o1", none⟩
          else ⟨false, none, none, some "err"⟩)).2
      = [(⟨"bybit", "BTCUSDT", "spot", Side.buy⟩, 1),
         (⟨"bybit", "BTCUSDT", "linear", Side.sell⟩, 1),
         (reverseLeg ⟨"bybit", "BTCUSDT", "spot", Side.buy⟩, 1)] ∧
    "p" ∉ (execute_arbitrage ⟨[], [], [], []⟩ "p"
        ⟨⟨"bybit", "BTCUSDT", "spot", Side.buy⟩,
          ⟨"bybit", "BTCUSDT", "linear", Side.sell⟩, 0, 1, 1, true, 1⟩
        (fun n => if n = 0 then ⟨true, none, some "o1", none⟩
          else ⟨false, none, none, some "err"⟩)).1.executing_pairs := by
  have h := execute_arbitrage_order_rollback_spec ⟨[], [], [], []⟩ "p"
    ⟨⟨"bybit", "BTCUSDT", "spot", Side.buy⟩,
      ⟨"bybit", "BTCUSDT", "linear", Side.sell⟩, 0, 1, 1, true, 1⟩
    (fun n => if n = 0 then ⟨true, none, some "o1", none⟩
      else ⟨false, none, none, some "err"⟩)
  exact ⟨(h.2.2.1 (by decide) (by decide)).1, h.2.2.2.2⟩

/-- **C7.** When both legs succeed, an execution-history record is appended
under the pair's id and the pair's counter is incremented; if the new count
is still below the configured maximum the pair survives with that count,
and as soon as it reaches the maximum the pair is removed from the
monitored map (its later ticks find no config under the id). -/
theorem execute_arbitrage_success_spec (st : ArbState) (pid : String)
    (cfg : PairConfig) (resp : Nat → OrderResult)
    (h1 : (resp 0).success = true) (h2 : (resp 1).success = true) :
    (execute_arbitrage st pid cfg resp).1.executions_history.lookup pid
        = some ((st.executions_history.lookup pid).getD [] ++
            [⟨pid, cfg.qty, (resp 0).order_id, (resp 1).order_id⟩]) ∧
    (countGet st.executions_count pid + 1 < cfg.max_execs →
      countGet (execute_arbitrage st pid cfg resp).1.executions_count pid
          = countGet st.executions_count pid + 1 ∧
      (execute_arbitrage st pid cfg resp).1.pairs = st.pairs) ∧
    (cfg.max_execs ≤ countGet st.executions_count pid + 1 →
      (execute_arbitrage st pid cfg resp).1.pairs.lookup pid = none) := by
  unfold execute_arbitrage
  rw [if_neg (by simp [h1]), if_neg (by simp [h2])]
  dsimp only
  have hcount : countGet (dictSet st.executions_count pid
      (countGet st.executions_count pid + 1)) pid
        = countGet st.executions_count pid + 1 := by
    unfold countGet
    rw [lookup_dictSet_self]
    rfl
  refine ⟨?_, ?_, ?_⟩
  · by_cases hc : cfg.max_execs ≤ countGet (dictSet st.executions_count pid
        (countGet st.executions_count pid + 1)) pid
    · rw [if_pos hc]
      show (appendHistory st.executions_history pid
        ⟨pid, cfg.qty, (resp 0).order_id, (resp 1).order_id⟩).lookup pid = _
      unfold appendHistory
      rw [lookup_dictSet_self]
    · rw [if_neg hc]
      show (appendHistory st.executions_history pid
        ⟨pid, cfg.qty, (resp 0).order_id, (resp 1).order_id⟩).lookup pid = _
      unfold appendHistory
      rw [lookup_dictSet_self]
  · intro hlt
    have hc : ¬ cfg.max_execs ≤ countGet (dictSet st.executions_count pid
        (countGet st.executions_count pid + 1)) pid := by
      rw [hcount]; omega
    rw [if_neg hc]
    exact ⟨hcount, rfl⟩
  · intro hge
    have hc : cfg.max_execs ≤ countGet (dictSet st.executions_count pid
        (countGet st.executions_count pid + 1)) pid := by
      rw [hcount]; omega
    rw [if_pos hc]
    show (st.pairs.filter (fun x => decide (x.1 ≠ pid))).lookup pid = none
    exact lookup_filter_ne _ _

/-- Witness for C7: with `maxExecs = 1`, a fully successful execution
appends one history record under the pair id and removes the pair from the
monitored map. -/
theorem execute_arbitrage_success_witness :
    (execute_arbitrage
        ⟨[("p", ⟨⟨"bybit", "BTCUSDT", "spot", Side.buy⟩,
            ⟨"bybit", "BTCUSDT", "linear", Side.sell⟩, 0, 1, 1, true, 1⟩)], [], [], []⟩
        "p"
        ⟨⟨"bybit", "BTCUSDT", "spot", Side.buy⟩,
          ⟨"bybit", "BTCUSDT", "linear", Side.sell⟩, 0, 1, 1, true, 1⟩
        (fun n => ⟨true, none, some (if n = 0 then "o1" else "o2"), none⟩)).1.executions_history.lookup "p"
      = some [⟨"p", 1, some "o1", some "o2"⟩] ∧
    (execute_arbitrage
        ⟨[("p", ⟨⟨"bybit", "BTCUSDT", "spot", Side.buy⟩,
            ⟨"bybit", "BTCUSDT", "linear", Side.sell⟩, 0, 1, 1, true, 1⟩)], [], [], []⟩
        "p"
        ⟨⟨"bybit", "BTCUSDT", "spot", Side.buy⟩,
          ⟨"bybit", "BTCUSDT", "linear", Side.sell⟩, 0, 1, 1, true, 1⟩
        (fun n => ⟨true, none, some (if n = 0 then "o1" else "o2"), none⟩)).1.pairs.lookup "p"
      = none := by
  have h := execute_arbitrage_success_spec
    ⟨[("p", ⟨⟨"bybit", "BTCUSDT", "spot", Side.buy⟩,
        ⟨"bybit", "BTCUSDT", "linear", Side.sell⟩, 0, 1, 1, true, 1⟩)], [], [], []⟩
    "p"
    ⟨⟨"bybit", "BTCUSDT", "spot", Side.buy⟩,
      ⟨"bybit", "BTCUSDT", "linear", Side.sell⟩, 0, 1, 1, true, 1⟩
    (fun n => ⟨true, none, some (if n = 0 then "o1" else "o2"), none⟩)
    (by decide) (by decide)
  refine ⟨?_, h.2.2 (by decide)⟩
  rw [h.1]
  decide

/-! ## TWAP Scheduler (`app/services/twap_engine.py`, `app/models/twap.py`) -/

/-- `TwapState` enum (models/twap.py lines 10–16). -/
inductive TwapState where
  | pending
  | running
  | paused
  | completed
  | cancelled
  | failed
deriving Repr, DecidableEq

/-- `OrderTemplate` (models/twap.py lines 19–27): one TWAP leg.  The
`price` field (limit orders only) is irrelevant to the engine paths
modelled here and omitted. -/
structure OrderTemplate where
  exchange : String
  symbol : String
  side : Side
  type : String
  category : String
deriving Repr, DecidableEq

/-- `TwapPlan` (models/twap.py lines 30–38): fields read by the engine.
Wall-clock fields (`createdAt`) are not modelled.  Pydantic enforces
`totalQty > 0`, `sliceQty > 0`, `legs` nonempty at the boundary. -/
structure TwapPlan where
  planId : String
  name : String
  totalQty : ℚ
  sliceQty : ℚ
  intervalMs : Nat
  legs : List OrderTemplate
deriving Repr, DecidableEq

/-- `TwapProgress` (models/twap.py lines 41–49); the wall-clock
`lastExecutionTs`/`nextExecutionTs` fields are not modelled. -/
structure TwapProgress where
  planId : String
  executed : ℚ
  remaining : ℚ
  slicesDone : Nat
  slicesTotal : Nat
  state : TwapState
deriving Repr, DecidableEq

/-- `TwapExecution` (models/twap.py lines 52–63); the wall-clock `ts` field
is not modelled.  `sliceIndex` is an `Int` because `emergency_rollback`
passes `-1`. -/
structure TwapExecution where
  planId : String
  sliceIndex : Int
  legIndex : Nat
  orderId : Option String
  success : Bool
  price : Option ℚ
  qty : ℚ
  error : Option String
  is_rollback : Bool := false
  original_order_id : Option String := none
deriving Repr, DecidableEq

/-- `int(plan.totalQty / plan.sliceQty)` (src lines 346 and 576).  Python
`int()` truncates toward zero; both quantities are positive (pydantic
`gt=0`), where truncation and floor agree. -/
def sliceCount (plan : TwapPlan) : Nat := ⌊plan.totalQty / plan.sliceQty⌋.toNat

/-- `create_plan`'s progress initialisation (src lines 341–348). -/
def create_progress (plan : TwapPlan) : TwapProgress :=
  { planId := plan.planId, executed := 0, remaining := plan.totalQty,
    slicesDone := 0, slicesTotal := sliceCount plan, state := TwapState.pending }

/-- `start_plan` (src lines 361–379) restricted to the per-plan progress:
`none` models an unknown plan id.  Only a PENDING plan starts; the spawned
task is `execute_twap` below. -/
def start_plan (prog : Option TwapProgress) : Bool × Option TwapProgress :=
  match prog with
  | none => (false, none)
  | some p =>
    if p.state ≠ TwapState.pending then (false, some p)
    else (true, some { p with state := TwapState.running })

/-- `pause_plan` (src lines 381–405): allowed from RUNNING or PAUSED. -/
def pause_plan (prog : Option TwapProgress) : Bool × Option TwapProgress :=
  match prog with
  | none => (false, none)
  | some p =>
    if p.state ∉ [TwapState.running, TwapState.paused] then (false, some p)
    else (true, some { p with state := TwapState.paused })

/-- `resume_plan` (src lines 407–423): allowed from PAUSED only; spawns a
fresh `execute_twap` task on the stored progress. -/
def resume_plan (prog : Option TwapProgress) : Bool × Option TwapProgress :=
  match prog with
  | none => (false, none)
  | some p =>
    if p.state ≠ TwapState.paused then (false, some p)
    else (true, some { p with state := TwapState.running })

/-- `cancel_plan` (src lines 425–439): no source-state check at all — any
known plan is set to CANCELLED and `true` is returned. -/
def cancel_plan (prog : Option TwapProgress) : Bool × Option TwapProgress :=
  match prog with
  | none => (false, none)
  | some p => (true, some { p with state := TwapState.cancelled })

/-- The reverse side used by both rollback routines
(`"Sell" if original_side == "buy" else "Buy"`). -/
def reverseSide : Side → Side
  | Side.buy => Side.sell
  | Side.sell => Side.buy

/-- Whether the first list is an initial segment of the second. -/
def startsWithSeq {α : Type} [BEq α] : List α → List α → Bool
  | [], _ => true
  | _ :: _, [] => false
  | p :: ps, c :: cs => (p == c) && startsWithSeq ps cs

/-- Whether `pat` occurs as a contiguous run of the second list. -/
def hasSubSeq {α : Type} [BEq α] (pat : List α) : List α → Bool
  | [] => startsWithSeq pat []
  | c :: cs => startsWithSeq pat (c :: cs) || hasSubSeq pat cs

/-- Python `pat in msg` (substring test), over the character lists. -/
def containsSub (msg pat : String) : Bool := hasSubSeq pat.toList msg.toList

/-- `str.lower()` on one character code (ASCII case fold, as CPython does
for the ASCII strings involved here). -/
def lowerCode (n : Nat) : Nat := if 65 ≤ n ∧ n ≤ 90 then n + 32 else n

/-- The failure classification of `_execute_twap` (src line 661):
`"ErrCode: 10003" in msg or "not authorized" in msg.lower()`. -/
def isAuthError (msg : String) : Bool :=
  containsSub msg "ErrCode: 10003" ||
    hasSubSeq ("not authorized".toList.map Char.toNat)
      (msg.toList.map (fun c => lowerCode c.toNat))

/-- The terminal state chosen on a leg failure (src lines 661–664). -/
def failState (res : OrderResult) : TwapState :=
  if isAuthError (res.error_message.getD "") then TwapState.failed
  else TwapState.cancelled

/-- One entry of the `successful_legs` list (src lines 631–636). -/
structure SuccLeg where
  leg_index : Nat
  leg : OrderTemplate
  order_id : Option String
  side : Side
deriving Repr, DecidableEq

/-- One order sent to the exchange by the TWAP engine (symbol, spot/linear
category, Buy/Sell side, quantity). -/
structure PlacedTwapOrder where
  symbol : String
  category : String
  side : Side
  qty : ℚ
deriving Repr, DecidableEq

/-- `_rollback_successful_legs` (src lines 480–568): for each succeeded leg
place the inverse-direction order for `plan.sliceQty` on the same
symbol/category and append one `is_rollback` execution record carrying the
original order id.  `rbResp j` is the exchange's answer to the rollback
order for leg `j`.  Returns (records appended, orders placed). -/
def rollback_successful_legs (plan : TwapPlan) (slice_index : Int)
    (succ : List SuccLeg) (rbResp : Nat → OrderResult) :
    List TwapExecution × List PlacedTwapOrder :=
  (succ.map (fun li =>
      { planId := plan.planId, sliceIndex := slice_index, legIndex := li.leg_index,
        orderId := (rbResp li.leg_index).order_id,
        success := (rbResp li.leg_index).success,
        price := (rbResp li.leg_index).price, qty := plan.sliceQty,
        error := (rbResp li.leg_index).error_message, is_rollback := true,
        original_order_id := li.order_id }),
   succ.map (fun li =>
      { symbol := li.leg.symbol, category := li.leg.category,
        side := reverseSide li.side, qty := plan.sliceQty }))

/-- The execution record appended for a leg attempt (src lines 616–627). -/
def legRecord (plan : TwapPlan) (slice : Nat) (legIndex : Nat)
    (res : OrderResult) : TwapExecution :=
  { planId := plan.planId, sliceIndex := (slice : Int), legIndex := legIndex,
    orderId := res.order_id, success := res.success, price := res.price,
    qty := plan.sliceQty, error := res.error_message }

/-- The inner leg loop of `_execute_twap` (src lines 586–674) over the
still-pending enumerated legs, carrying the `successful_legs` accumulator.
`resp j` is the exchange's answer to leg `j` of this slice.  On success the
progress advances by `sliceQty` (src lines 638–639); on failure the
accumulated legs are rolled back, the terminal state is chosen by
`failState` and the loop stops (`slice_failed = True`).  Returns (updated
progress, records appended in order, slice_failed). -/
def runLegsAux (plan : TwapPlan) (slice : Nat) (resp : Nat → OrderResult)
    (rbResp : Nat → OrderResult) :
    List (Nat × OrderTemplate) → List SuccLeg → TwapProgress →
    TwapProgress × List TwapExecution × Bool
  | [], _, prog => (prog, [], false)
  | (legIndex, leg) :: rest, succ, prog =>
    let res := resp legIndex
    let execution := legRecord plan slice legIndex res
    if res.success = true then
      let prog' := { prog with
        executed := prog.executed + plan.sliceQty,
        remaining := prog.remaining - plan.sliceQty }
      let out := runLegsAux plan slice resp rbResp rest
        (succ ++ [⟨legIndex, leg, res.order_id, leg.side⟩]) prog'
      (out.1, execution :: out.2.1, out.2.2)
    else
      let rbRecs := if succ.isEmpty then []
        else (rollback_successful_legs plan (slice : Int) succ rbResp).1
      ({ prog with state := failState res }, execution :: rbRecs, true)

/-- Progress and append-only execution list of one `_execute_twap` run. -/
structure TwapRunState where
  progress : TwapProgress
  execs : List TwapExecution
deriving Repr, DecidableEq

/-- The slice loop of `_execute_twap` (src lines 578–685) over the list of
remaining slice indices: stop when the state has left RUNNING, run the legs
of the slice, set `slicesDone := slice + 1` (src line 676, also on
failure), and stop after a failed slice.  The inter-slice sleep is the only
suspension point and is invisible to the single-task model. -/
def runSlices (plan : TwapPlan) (resp rbResp : Nat → Nat → OrderResult) :
    List Nat → TwapRunState → TwapRunState
  | [], st => st
  | slice :: rest, st =>
    if st.progress.state = TwapState.running then
      let out := runLegsAux plan slice (resp slice) (rbResp slice)
        plan.legs.enum [] st.progress
      let prog' := { out.1 with slicesDone := slice + 1 }
      let st' : TwapRunState := ⟨prog', st.execs ++ out.2.1⟩
      if out.2.2 = true then st' else runSlices plan resp rbResp rest st'
    else st

/-- `_execute_twap` (src lines 570–712): iterate
`for slice_index in range(total_slices))` — always from 0, whatever
`progress.slicesDone` holds — then mark COMPLETED when the loop ends still
RUNNING.  `resp s j` / `rbResp s j` are the exchange answers for leg `j` of
slice `s` (normal and rollback orders respectively). -/
def execute_twap (plan : TwapPlan) (resp rbResp : Nat → Nat → OrderResult)
    (prog : TwapProgress) : TwapRunState :=
  let st := runSlices plan resp rbResp (List.range (sliceCount plan)) ⟨prog, []⟩
  if st.progress.state = TwapState.running then
    { st with progress := { st.progress with state := TwapState.completed } }
  else st

/-- One vendor response to a perp order attempt, as `_place_perp_order`
classifies `retMsg` by its string checks (src lines 110–163). -/
inductive PerpResp where
  | ok (orderId : String)
  | insufficientBalance
  | borrowPoolExhausted
  | other (msg : String)
deriving Repr, DecidableEq

/-- `_place_perp_order` / `_handle_borrowing_error` (src lines 99–197) as a
function of the successive vendor responses, one per attempt: on
`ErrCode: 170207` the handler sleeps a fixed 10 s and calls
`_place_perp_order` again — mutual recursion with no attempt counter.
Returns (number of attempts made, final result); an exhausted response list
ends the run with a failure, which is the model's way of truncating an
otherwise endless retry chain. -/
def place_perp_order : List PerpResp → Nat × OrderResult
  | [] => (0, ⟨false, none, none, some "no-response"⟩)
  | r :: rest =>
    match r with
    | .ok oid => (1, ⟨true, none, some oid, none⟩)
    | .insufficientBalance => (1, ⟨false, none, none, some "ErrCode: 170131"⟩)
    | .other msg => (1, ⟨false, none, none, some msg⟩)
    | .borrowPoolExhausted =>
      let out := place_perp_order rest
      (out.1 + 1, out.2)

/-! ### C4: borrow-pool retry is unbounded, not one-shot -/

/-- Discriminator for the `ErrCode: 170207` borrow-pool response. -/
def isBorrowResp : PerpResp → Bool
  | PerpResp.borrowPoolExhausted => true
  | _ => false

/-- **C4 counterexample.** Three consecutive borrow-pool errors followed by
a success make four order attempts inside one top-level
`_place_perp_order` call — the claimed two-attempt bound is false. -/
theorem place_perp_order_two_attempt_cex :
    ¬ ((place_perp_order [PerpResp.borrowPoolExhausted, PerpResp.borrowPoolExhausted,
        PerpResp.borrowPoolExhausted, PerpResp.ok "o"]).1 ≤ 2) := by decide

/-- **C4 (amended).** On `ErrCode: 170207` the gateway waits a fixed
backoff and retries with no bound: one attempt is made per consecutive
borrow-pool response plus one for the first differing response, however
long the error persists (the attempt count is capped only by the length of
the modelled response list). -/
theorem place_perp_order_attempts (resps : List PerpResp) :
    (place_perp_order resps).1
      = min resps.length ((resps.takeWhile isBorrowResp).length + 1) := by
  induction resps with
  | nil => simp [place_perp_order]
  | cons r rest ih =>
    cases r with
    | borrowPoolExhausted =>
      simp only [place_perp_order, List.takeWhile_cons, isBorrowResp,
        List.length_cons, ih, if_pos]
      omega
    | ok oid =>
      simp only [place_perp_order, List.takeWhile_cons, isBorrowResp, List.length_cons]
      simp only [Bool.false_eq_true, if_false, List.length_nil]
      omega
    | insufficientBalance =>
      simp only [place_perp_order, List.takeWhile_cons, isBorrowResp, List.length_cons]
      simp only [Bool.false_eq_true, if_false, List.length_nil]
      omega
    | other msg =>
      simp only [place_perp_order, List.takeWhile_cons, isBorrowResp, List.length_cons]
      simp only [Bool.false_eq_true, if_false, List.length_nil]
      omega

/-! ### C3: transition guards — cancel has none -/

/-- **C3 counterexample.** `cancel_plan` on a COMPLETED plan does not
return false and does not leave the state terminal: it returns true and
overwrites the state with CANCELLED. -/
theorem cancel_plan_terminal_cex :
    (cancel_plan (some ⟨"p", 0, 0, 0, 0, TwapState.completed⟩)).1 = true ∧
    (cancel_plan (some ⟨"p", 0, 0, 0, 0, TwapState.completed⟩)).2
      = some ⟨"p", 0, 0, 0, 0, TwapState.cancelled⟩ ∧
    ¬ ((cancel_plan (some ⟨"p", 0, 0, 0, 0, TwapState.completed⟩)).1 = false) := by
  refine ⟨rfl, ?_, by decide⟩
  rfl

/-- **C3 (amended).** start, pause and resume return false and leave the
progress unchanged when called from an invalid source state (and all four
transitions return false for an unknown plan id); cancel, however, checks
only that the plan exists: from any state — the terminal states COMPLETED,
CANCELLED and FAILED included — it returns true and sets CANCELLED. -/
theorem twap_transition_spec (p : TwapProgress) :
    (p.state ≠ TwapState.pending → start_plan (some p) = (false, some p)) ∧
    (p.state ∉ [TwapState.running, TwapState.paused] →
      pause_plan (some p) = (false, some p)) ∧
    (p.state ≠ TwapState.paused → resume_plan (some p) = (false, some p)) ∧
    cancel_plan (some p) = (true, some { p with state := TwapState.cancelled }) ∧
    start_plan none = (false, none) ∧ pause_plan none = (false, none) ∧
    resume_plan none = (false, none) ∧ cancel_plan none = (false, none) := by
  refine ⟨fun h => ?_, fun h => ?_, fun h => ?_, rfl, rfl, rfl, rfl, rfl⟩
  · show (if p.state ≠ TwapState.pending then (false, some p)
      else (true, some { p with state := TwapState.running })) = (false, some p)
    rw [if_pos h]
  · show (if p.state ∉ [TwapState.running, TwapState.paused] then (false, some p)
      else (true, some { p with state := TwapState.paused })) = (false, some p)
    rw [if_pos h]
  · show (if p.state ≠ TwapState.paused then (false, some p)
      else (true, some { p with state := TwapState.running })) = (false, some p)
    rw [if_pos h]

/-- Witness for C3 (amended): on a COMPLETED plan, start, pause and resume
all return false with the state untouched, while cancel flips it to
CANCELLED. -/
theorem twap_transition_spec_witness :
    start_plan (some ⟨"p", 0, 0, 0, 0, TwapState.completed⟩)
      = (false, some ⟨"p", 0, 0, 0, 0, TwapState.completed⟩) ∧
    pause_plan (some ⟨"p", 0, 0, 0, 0, TwapState.completed⟩)
      = (false, some ⟨"p", 0, 0, 0, 0, TwapState.completed⟩) ∧
    resume_plan (some ⟨"p", 0, 0, 0, 0, TwapState.completed⟩)
      = (false, some ⟨"p", 0, 0, 0, 0, TwapState.completed⟩) := by
  have h := twap_transition_spec ⟨"p", 0, 0, 0, 0, TwapState.completed⟩
  exact ⟨h.1 (by decide), h.2.1 (by decide), h.2.2.1 (by decide)⟩

/-! ### C1: resume restarts from slice 0 -/

/-- The leg, plan and all-success exchange oracle of the resume scenario:
one leg, `totalQty = 2`, `sliceQty = 1`, two slices. -/
def c1leg : OrderTemplate := ⟨"bybit", "ETHUSDT", Side.buy, "market", "spot"⟩

def c1plan : TwapPlan := ⟨"p", "t", 2, 1, 1000, [c1leg]⟩

def allOkResp : Nat → Nat → OrderResult := fun _ _ => ⟨true, none, some "o", none⟩

/-- **C1 (code bug).** Resuming a PAUSED plan whose slice 0 is already done
(`slicesDone = 1`, `executed = 1` of a 2-unit plan) spawns a task whose
loop is `for slice_index in range(total_slices)` — it starts again at
slice 0 instead of slice 1.  The resumed run appends a fresh slice-0
record, drives `executed` to 3 (past `totalQty = 2`), `remaining` to −1,
and overwrites `slicesDone`; the stored progress is not used to skip
completed slices. -/
theorem resume_reexecutes_completed_slices :
    (resume_plan (some ⟨"p", 1, 1, 1, 2, TwapState.paused⟩)).1 = true ∧
    (resume_plan (some ⟨"p", 1, 1, 1, 2, TwapState.paused⟩)).2
      = some ⟨"p", 1, 1, 1, 2, TwapState.running⟩ ∧
    (execute_twap c1plan allOkResp allOkResp
        ⟨"p", 1, 1, 1, 2, TwapState.running⟩).execs.countP
      (fun e => decide (e.sliceIndex = 0)) = 1 ∧
    (execute_twap c1plan allOkResp allOkResp
        ⟨"p", 1, 1, 1, 2, TwapState.running⟩).progress.executed = 3 ∧
    (execute_twap c1plan allOkResp allOkResp
        ⟨"p", 1, 1, 1, 2, TwapState.running⟩).progress.remaining = -1 := by
  have hr : List.range (sliceCount c1plan) = [0, 1] := by
    have h : sliceCount c1plan = 2 := by
      unfold sliceCount c1plan
      norm_num
      rfl
    rw [h]
    rfl
  have hlegs : c1plan.legs.enum = [(0, c1leg)] := rfl
  have hq : c1plan.sliceQty = 1 := rfl
  have hid : c1plan.planId = "p" := rfl
  refine ⟨rfl, rfl, ?_, ?_, ?_⟩ <;>
    norm_num [execute_twap, hr, runSlices, runLegsAux, legRecord, allOkResp, hlegs, hq, hid]

/-! ### Leg-loop lemmas -/

theorem runLegsAux_sum_invariant (plan : TwapPlan) (slice : Nat)
    (resp rbResp : Nat → OrderResult) :
    ∀ (pairs : List (Nat × OrderTemplate)) (succ : List SuccLeg) (prog : TwapProgress),
      (runLegsAux plan slice resp rbResp pairs succ prog).1.executed
          + (runLegsAux plan slice resp rbResp pairs succ prog).1.remaining
        = prog.executed + prog.remaining := by
  intro pairs
  induction pairs with
  | nil => intro succ prog; rfl
  | cons a rest ih =>
    rcases a with ⟨legIndex, leg⟩
    intro succ prog
    by_cases hs : (resp legIndex).success = true
    · simp only [runLegsAux, if_pos hs]
      rw [ih]
      show prog.executed + plan.sliceQty + (prog.remaining - plan.sliceQty) = _
      ring
    · simp only [runLegsAux, if_neg hs]

theorem runLegsAux_all_success (plan : TwapPlan) (slice : Nat)
    (resp rbResp : Nat → OrderResult) :
    ∀ (pairs : List (Nat × OrderTemplate)) (succ : List SuccLeg) (prog : TwapProgress),
      (∀ p ∈ pairs, (resp p.1).success = true) →
      (runLegsAux plan slice resp rbResp pairs succ prog).2.2 = false ∧
      (runLegsAux plan slice resp rbResp pairs succ prog).1
        = { prog with
            executed := prog.executed + pairs.length * plan.sliceQty,
            remaining := prog.remaining - pairs.length * plan.sliceQty } ∧
      (∀ e ∈ (runLegsAux plan slice resp rbResp pairs succ prog).2.1,
        e.is_rollback = false ∧ e.sliceIndex = (slice : Int)) := by
  intro pairs
  induction pairs with
  | nil =>
    intro succ prog h
    refine ⟨rfl, ?_, fun e he => absurd he (List.not_mem_nil e)⟩
    show prog = _
    cases prog
    simp
  | cons a rest ih =>
    rcases a with ⟨legIndex, leg⟩
    intro succ prog h
    have hs : (resp legIndex).success = true := h (legIndex, leg) (List.mem_cons_self _ _)
    have ih' := ih (succ ++ [⟨legIndex, leg, (resp legIndex).order_id, leg.side⟩])
      { prog with
        executed := prog.executed + plan.sliceQty,
        remaining := prog.remaining - plan.sliceQty }
      (fun p hp => h p (List.mem_cons_of_mem _ hp))
    simp only [runLegsAux, if_pos hs]
    refine ⟨ih'.1, ?_, ?_⟩
    · rw [ih'.2.1]
      cases prog
      simp only [List.length_cons, TwapProgress.mk.injEq, Nat.cast_add, Nat.cast_one,
        true_and, and_true]
      constructor <;> ring
    · intro e he
      rcases List.mem_cons.mp he with he | he
      · subst he
        exact ⟨rfl, rfl⟩
      · exact ih'.2.2 e he

/-- The `successful_legs` entry built for leg `x` of a slice. -/
def succEntry (resp : Nat → OrderResult) (x : Nat × OrderTemplate) : SuccLeg :=
  ⟨x.1, x.2, (resp x.1).order_id, x.2.side⟩

theorem enumFrom_nil {α : Type _} (n : Nat) : List.enumFrom n ([] : List α) = [] := rfl

theorem enumFrom_cons {α : Type _} (n : Nat) (a : α) (l : List α) :
    List.enumFrom n (a :: l) = (n, a) :: List.enumFrom (n + 1) l := rfl

/-- Closed form of the leg loop when the `m` legs at indices `i..i+m-1`
succeed and the leg at `i+m` fails: the loop stops at the failure, rolls
back exactly the accumulated successes and classifies the terminal
state. -/
theorem runLegsAux_fail_at (plan : TwapPlan) (slice : Nat)
    (resp rbResp : Nat → OrderResult) :
    ∀ (m : Nat) (legs : List OrderTemplate) (i : Nat) (succ : List SuccLeg)
      (prog : TwapProgress),
      m < legs.length →
      (∀ j < m, (resp (i + j)).success = true) →
      (resp (i + m)).success = false →
      runLegsAux plan slice resp rbResp (List.enumFrom i legs) succ prog
        = ({ prog with
              executed := prog.executed + m * plan.sliceQty,
              remaining := prog.remaining - m * plan.sliceQty,
              state := failState (resp (i + m)) },
           ((List.enumFrom i (legs.take m)).map
              (fun x => legRecord plan slice x.1 (resp x.1)))
             ++ legRecord plan slice (i + m) (resp (i + m))
               :: (if (succ ++ (List.enumFrom i (legs.take m)).map (succEntry resp)).isEmpty
                   then []
                   else (rollback_successful_legs plan (slice : Int)
                      (succ ++ (List.enumFrom i (legs.take m)).map (succEntry resp))
                      rbResp).1),
           true) := by
  intro m
  induction m with
  | zero =>
    intro legs i succ prog hm hsucc hfail
    rcases legs with _ | ⟨l, rest⟩
    · simp at hm
    · have hf : ¬ ((resp i).success = true) := by
        simp [show (resp i).success = false from hfail]
      rw [enumFrom_cons, runLegsAux.eq_2, if_neg hf]
      simp only [List.take_zero, enumFrom_nil, List.map_nil, List.nil_append,
        List.append_nil]
      simp only [Prod.mk.injEq]
      refine ⟨?_, ?_, trivial⟩
      · cases prog
        simp
      · rfl
  | succ m ih =>
    intro legs i succ prog hm hsucc hfail
    rcases legs with _ | ⟨l, rest⟩
    · simp at hm
    · have hs : (resp i).success = true := by
        have h0 := hsucc 0 (by omega)
        simpa using h0
      have hm' : m < rest.length := by simpa using hm
      have hsucc' : ∀ j < m, (resp (i + 1 + j)).success = true := by
        intro j hj
        have hx := hsucc (j + 1) (by omega)
        rwa [show i + (j + 1) = i + 1 + j by omega] at hx
      rw [show i + (m + 1) = i + 1 + m by omega] at hfail ⊢
      have hrec := ih rest (i + 1)
        (succ ++ [⟨i, l, (resp i).order_id, l.side⟩])
        { prog with
          executed := prog.executed + plan.sliceQty,
          remaining := prog.remaining - plan.sliceQty }
        hm' hsucc' hfail
      rw [enumFrom_cons, runLegsAux.eq_2, if_pos hs]
      simp only [List.take_succ_cons, enumFrom_cons, List.map_cons]
      rw [hrec]
      simp only [Prod.mk.injEq]
      refine ⟨?_, ?_, trivial⟩
      · cases prog
        simp only [TwapProgress.mk.injEq, true_and, and_true, Nat.cast_add,
          Nat.cast_one]
        constructor <;> ring
      · rw [List.cons_append]
        have harr : (succ ++ [(⟨i, l, (resp i).order_id, l.side⟩ : SuccLeg)])
              ++ (List.enumFrom (i + 1) (rest.take m)).map (succEntry resp)
            = succ ++ (succEntry resp (i, l))
              :: (List.enumFrom (i + 1) (rest.take m)).map (succEntry resp) := by
          rw [List.append_assoc, List.singleton_append]
          rfl
        rw [harr]


/-! ### Slice-loop lemmas -/

theorem runSlices_sum_invariant (plan : TwapPlan) (resp rbResp : Nat → Nat → OrderResult) :
    ∀ (slices : List Nat) (st : TwapRunState),
      (runSlices plan resp rbResp slices st).progress.executed
          + (runSlices plan resp rbResp slices st).progress.remaining
        = st.progress.executed + st.progress.remaining := by
  intro slices
  induction slices with
  | nil => intro st; rfl
  | cons slice rest ih =>
    intro st
    by_cases hrun : st.progress.state = TwapState.running
    · rw [runSlices.eq_2, if_pos hrun]
      dsimp only
      by_cases hf : (runLegsAux plan slice (resp slice) (rbResp slice)
          plan.legs.enum [] st.progress).2.2 = true
      · rw [if_pos hf]
        exact runLegsAux_sum_invariant plan slice (resp slice) (rbResp slice)
          plan.legs.enum [] st.progress
      · rw [if_neg hf]
        rw [ih]
        exact runLegsAux_sum_invariant plan slice (resp slice) (rbResp slice)
          plan.legs.enum [] st.progress
    · rw [runSlices.eq_2, if_neg hrun]

theorem runSlices_all_success (plan : TwapPlan) (resp rbResp : Nat → Nat → OrderResult)
    (hall : ∀ s j, (resp s j).success = true) :
    ∀ (slices : List Nat) (st : TwapRunState),
      st.progress.state = TwapState.running →
      (runSlices plan resp rbResp slices st).progress.state = TwapState.running ∧
      (runSlices plan resp rbResp slices st).progress.executed
        = st.progress.executed
            + slices.length * (plan.legs.length * plan.sliceQty) ∧
      (runSlices plan resp rbResp slices st).progress.remaining
        = st.progress.remaining
            - slices.length * (plan.legs.length * plan.sliceQty) := by
  intro slices
  induction slices with
  | nil =>
    intro st hrun
    refine ⟨hrun, ?_, ?_⟩ <;> simp [runSlices]
  | cons slice rest ih =>
    intro st hrun
    have hlegs := runLegsAux_all_success plan slice (resp slice) (rbResp slice)
      plan.legs.enum [] st.progress (fun p _ => hall slice p.1)
    rw [runSlices.eq_2, if_pos hrun]
    dsimp only
    rw [if_neg (by rw [hlegs.1]; exact Bool.false_ne_true)]
    have ih' := ih ⟨{ (runLegsAux plan slice (resp slice) (rbResp slice)
        plan.legs.enum [] st.progress).1 with slicesDone := slice + 1 },
      st.execs ++ (runLegsAux plan slice (resp slice) (rbResp slice)
        plan.legs.enum [] st.progress).2.1⟩
      (by rw [hlegs.2.1]; exact hrun)
    refine ⟨ih'.1, ?_, ?_⟩
    · rw [ih'.2.1]
      show ({ (runLegsAux plan slice (resp slice) (rbResp slice)
          plan.legs.enum [] st.progress).1 with slicesDone := slice + 1 }).executed
            + _ = _
      rw [hlegs.2.1]
      show st.progress.executed + (plan.legs.enum.length : ℚ) * plan.sliceQty + _ = _
      rw [List.enum_length]
      simp only [List.length_cons]
      push_cast
      ring
    · rw [ih'.2.2]
      show ({ (runLegsAux plan slice (resp slice) (rbResp slice)
          plan.legs.enum [] st.progress).1 with slicesDone := slice + 1 }).remaining
            - _ = _
      rw [hlegs.2.1]
      show st.progress.remaining - (plan.legs.enum.length : ℚ) * plan.sliceQty - _ = _
      rw [List.enum_length]
      simp only [List.length_cons]
      push_cast
      ring

/-! ### C10: progress accounting counts legs × slices -/

/-- **C10.** Every successful leg adds `sliceQty` to `executed` and
subtracts it from `remaining`, so `executed + remaining` is preserved by
the whole run; but `executed` advances once per leg, so a fully successful
run of a plan with `L` legs ends with `executed = L × totalQty` instead of
`totalQty`, and `remaining = (1 − L) × totalQty` — negative whenever
`L ≥ 2` and `totalQty > 0`. -/
theorem twap_progress_accounting (plan : TwapPlan)
    (resp rbResp : Nat → Nat → OrderResult) (prog : TwapProgress) :
    ((execute_twap plan resp rbResp prog).progress.executed
        + (execute_twap plan resp rbResp prog).progress.remaining
      = prog.executed + prog.remaining) ∧
    ((∀ s j, (resp s j).success = true) → prog.state = TwapState.running →
      (execute_twap plan resp rbResp prog).progress.executed
        = prog.executed
            + (sliceCount plan) * ((plan.legs.length : ℚ) * plan.sliceQty)) ∧
    ((∀ s j, (resp s j).success = true) → prog.state = TwapState.running →
      prog.executed = 0 → prog.remaining = plan.totalQty →
      plan.totalQty = (sliceCount plan) * plan.sliceQty →
      (execute_twap plan resp rbResp prog).progress.executed
          = (plan.legs.length : ℚ) * plan.totalQty ∧
      (execute_twap plan resp rbResp prog).progress.remaining
          = (1 - (plan.legs.length : ℚ)) * plan.totalQty ∧
      (2 ≤ plan.legs.length → 0 < plan.totalQty →
        (execute_twap plan resp rbResp prog).progress.remaining < 0)) := by
  have hbe : (execute_twap plan resp rbResp prog).progress.executed
      = (runSlices plan resp rbResp (List.range (sliceCount plan))
          ⟨prog, []⟩).progress.executed := by
    unfold execute_twap
    dsimp only
    split <;> rfl
  have hbr : (execute_twap plan resp rbResp prog).progress.remaining
      = (runSlices plan resp rbResp (List.range (sliceCount plan))
          ⟨prog, []⟩).progress.remaining := by
    unfold execute_twap
    dsimp only
    split <;> rfl
  have hsum : (execute_twap plan resp rbResp prog).progress.executed
      + (execute_twap plan resp rbResp prog).progress.remaining
      = prog.executed + prog.remaining := by
    rw [hbe, hbr]
    exact runSlices_sum_invariant plan resp rbResp (List.range (sliceCount plan))
      ⟨prog, []⟩
  have hex : (∀ s j, (resp s j).success = true) → prog.state = TwapState.running →
      (execute_twap plan resp rbResp prog).progress.executed
        = prog.executed + (sliceCount plan) * ((plan.legs.length : ℚ) * plan.sliceQty) := by
    intro hall hrun
    rw [hbe]
    have h := runSlices_all_success plan resp rbResp hall
      (List.range (sliceCount plan)) ⟨prog, []⟩ hrun
    rw [h.2.1]
    rw [List.length_range]
  refine ⟨hsum, hex, ?_⟩
  intro hall hrun he0 hrem htot
  have hx := hex hall hrun
  rw [he0, zero_add] at hx
  have hexec : (execute_twap plan resp rbResp prog).progress.executed
      = (plan.legs.length : ℚ) * plan.totalQty := by
    rw [hx, htot]
    ring
  have hrem' : (execute_twap plan resp rbResp prog).progress.remaining
      = (1 - (plan.legs.length : ℚ)) * plan.totalQty := by
    have := hsum
    rw [hexec, he0, hrem, zero_add] at this
    linarith
  refine ⟨hexec, hrem', fun hL hT => ?_⟩
  rw [hrem']
  have hL' : (1 : ℚ) - (plan.legs.length : ℚ) < 0 := by
    have : (2 : ℚ) ≤ (plan.legs.length : ℚ) := by exact_mod_cast hL
    linarith
  exact mul_neg_of_neg_of_pos hL' hT

/-- The two-leg 2×1 plan of the C10 witness. -/
def c10plan : TwapPlan :=
  ⟨"p", "t", 2, 1, 1000,
    [⟨"bybit", "ETHUSDT", Side.buy, "market", "spot"⟩,
     ⟨"bybit", "ETHUSDT", Side.sell, "market", "linear"⟩]⟩

/-- Witness for C10: the fully successful run of a two-leg plan with
`totalQty = 2`, `sliceQty = 1` ends with `executed = 4 = 2 × totalQty` and
`remaining = −2 < 0`. -/
theorem twap_progress_accounting_witness :
    (execute_twap c10plan allOkResp allOkResp
        ⟨"p", 0, 2, 0, 2, TwapState.running⟩).progress.executed = 4 ∧
    (execute_twap c10plan allOkResp allOkResp
        ⟨"p", 0, 2, 0, 2, TwapState.running⟩).progress.remaining = -2 ∧
    (execute_twap c10plan allOkResp allOkResp
        ⟨"p", 0, 2, 0, 2, TwapState.running⟩).progress.remaining < 0 := by
  have hsc : sliceCount c10plan = 2 := by
    unfold sliceCount c10plan
    norm_num
    rfl
  have h := (twap_progress_accounting c10plan allOkResp allOkResp
      ⟨"p", 0, 2, 0, 2, TwapState.running⟩).2.2
    (fun s j => rfl) rfl rfl rfl
    (by rw [hsc]; show (2 : ℚ) = 2 * 1; norm_num)
  refine ⟨?_, ?_, h.2.2 (by decide) (by decide)⟩
  · rw [h.1]
    show ((2 : Nat) : ℚ) * 2 = 4
    norm_num
  · rw [h.2.1]
    show (1 - ((2 : Nat) : ℚ)) * 2 = -2
    norm_num

/-! ### C2: per-slice saga rollback -/

theorem enum_mem_fst_lt {α : Type _} {l : List α} {p : Nat × α} (hp : p ∈ l.enum) :
    p.1 < l.length := by
  have h : (p.1, p.2) ∈ List.enumFrom 0 l := by
    rw [← List.enum_eq_enumFrom]
    simpa using hp
  have := List.mem_enumFrom h
  omega

theorem runSlices_prefix_ok (plan : TwapPlan) (resp rbResp : Nat → Nat → OrderResult) :
    ∀ (n s : Nat) (rest : List Nat) (st : TwapRunState),
      st.progress.state = TwapState.running →
      (∀ t j, s ≤ t → t < s + n → j < plan.legs.length → (resp t j).success = true) →
      ∃ (newRecs : List TwapExecution) (prog' : TwapProgress),
        runSlices plan resp rbResp (List.range' s n ++ rest) st
          = runSlices plan resp rbResp rest ⟨prog', st.execs ++ newRecs⟩ ∧
        prog'.state = TwapState.running ∧
        (∀ e ∈ newRecs, e.is_rollback = false ∧ e.sliceIndex < ((s + n : Nat) : Int)) := by
  intro n
  induction n with
  | zero =>
    intro s rest st hrun hok
    refine ⟨[], st.progress, ?_, hrun, fun e he => absurd he (List.not_mem_nil e)⟩
    show runSlices plan resp rbResp ([] ++ rest) st = _
    rw [List.nil_append, List.append_nil]
  | succ n ih =>
    intro s rest st hrun hok
    have hlegs := runLegsAux_all_success plan s (resp s) (rbResp s)
      plan.legs.enum [] st.progress
      (fun p hp => hok s p.1 le_rfl (by omega) (enum_mem_fst_lt hp))
    obtain ⟨recs2, prog2, heq, hprog2, hrecs2⟩ := ih (s + 1) rest
      ⟨{ (runLegsAux plan s (resp s) (rbResp s) plan.legs.enum [] st.progress).1 with
          slicesDone := s + 1 },
        st.execs ++ (runLegsAux plan s (resp s) (rbResp s)
          plan.legs.enum [] st.progress).2.1⟩
      (by rw [hlegs.2.1]; exact hrun)
      (fun t j ht1 ht2 hj => hok t j (by omega) (by omega) hj)
    refine ⟨(runLegsAux plan s (resp s) (rbResp s) plan.legs.enum [] st.progress).2.1
        ++ recs2, prog2, ?_, hprog2, ?_⟩
    · rw [List.range'_succ, List.cons_append, runSlices.eq_2, if_pos hrun]
      dsimp only
      rw [if_neg (by rw [hlegs.1]; exact Bool.false_ne_true)]
      rw [heq, List.append_assoc]
    · intro e he
      rcases List.mem_append.mp he with he | he
      · have h := hlegs.2.2 e he
        refine ⟨h.1, ?_⟩
        rw [h.2]
        push_cast
        omega
      · have h := hrecs2 e he
        refine ⟨h.1, ?_⟩
        have := h.2
        push_cast at this ⊢
        omega

theorem failState_ne_running (res : OrderResult) :
    failState res ≠ TwapState.running := by
  unfold failState
  split
  · decide
  · decide

theorem failState_eq_failed_iff (res : OrderResult) :
    failState res = TwapState.failed ↔
      isAuthError (res.error_message.getD "") = true := by
  unfold failState
  by_cases h : isAuthError (res.error_message.getD "") = true
  · rw [if_pos h]
    simp [h]
  · rw [if_neg h]
    simp [h]

theorem failState_eq_cancelled_iff (res : OrderResult) :
    failState res = TwapState.cancelled ↔
      ¬ isAuthError (res.error_message.getD "") = true := by
  unfold failState
  by_cases h : isAuthError (res.error_message.getD "") = true
  · rw [if_pos h]
    simp [h]
  · rw [if_neg h]
    simp [h]

theorem enumFrom_map_snd_fn {α β : Type _} (g : α → β) :
    ∀ (n : Nat) (l : List α), (List.enumFrom n l).map (fun x => g x.2) = l.map g := by
  intro n l
  induction l generalizing n with
  | nil => rfl
  | cons a t ih => simp [enumFrom_cons, ih]

/-- The `successful_legs` list accumulated when the first `m` legs of a
slice succeed. -/
def expectedSuccLegs (plan : TwapPlan) (resp : Nat → OrderResult) (m : Nat) : List SuccLeg :=
  (List.enumFrom 0 (plan.legs.take m)).map (succEntry resp)

theorem twap_fail_main (plan : TwapPlan)
    (resp rbResp : Nat → Nat → OrderResult) (prog : TwapProgress)
    (N M : Nat)
    (hrun : prog.state = TwapState.running)
    (hN : N < sliceCount plan)
    (hM : M < plan.legs.length)
    (hprior : ∀ s < N, ∀ j < plan.legs.length, (resp s j).success = true)
    (hMsucc : ∀ j < M, (resp N j).success = true)
    (hfail : (resp N M).success = false) :
    ∃ (recs1 : List TwapExecution) (prog1 : TwapProgress),
      (∀ e ∈ recs1, e.is_rollback = false ∧ e.sliceIndex < (N : Int)) ∧
      execute_twap plan resp rbResp prog
        = ⟨{ planId := prog1.planId,
             executed := prog1.executed + M * plan.sliceQty,
             remaining := prog1.remaining - M * plan.sliceQty,
             slicesDone := N + 1,
             slicesTotal := prog1.slicesTotal,
             state := failState (resp N M) },
           recs1 ++
             (((List.enumFrom 0 (plan.legs.take M)).map
                 (fun x => legRecord plan N x.1 (resp N x.1)))
               ++ legRecord plan N M (resp N M)
                 :: (if (expectedSuccLegs plan (resp N) M).isEmpty then []
                     else (rollback_successful_legs plan (N : Int)
                       (expectedSuccLegs plan (resp N) M) (rbResp N)).1))⟩ := by
  obtain ⟨recs1, prog1, heq1, hprog1, hrecs1⟩ :=
    runSlices_prefix_ok plan resp rbResp N 0 (List.range' N (sliceCount plan - N))
      ⟨prog, []⟩ hrun (fun t j ht1 ht2 hj => hprior t (by omega) j hj)
  have hfailat := runLegsAux_fail_at plan N (resp N) (rbResp N) M plan.legs 0 [] prog1
    hM (fun j hj => by simpa using hMsucc j hj) (by simpa using hfail)
  simp only [Nat.zero_add, List.nil_append] at hfailat
  refine ⟨recs1, prog1, by simpa using hrecs1, ?_⟩
  have hsplit : List.range (sliceCount plan)
      = List.range' 0 N ++ List.range' N (sliceCount plan - N) := by
    rw [List.range_eq_range']
    have h := List.range'_append 0 N (sliceCount plan - N) 1
    simp only [one_mul, Nat.zero_add] at h
    rw [h]
    congr 1
    omega
  unfold execute_twap
  dsimp only
  rw [hsplit, heq1]
  rw [show sliceCount plan - N = (sliceCount plan - N - 1) + 1 from by omega,
    List.range'_succ]
  rw [runSlices.eq_2]
  dsimp only
  rw [if_pos hprog1]
  rw [List.enum_eq_enumFrom, hfailat]
  dsimp only
  rw [if_pos (rfl : (true : Bool) = true)]
  rw [if_neg (failState_ne_running (resp N M))]
  rw [List.nil_append]
  rfl

/-- **C2.** If during a TWAP run every slice before `N` fully succeeds and
on slice `N` the first `M` legs succeed before leg `M` fails, then: the run
terminates in `failState (resp N M)` — FAILED exactly when the error text
is an authorization failure (`ErrCode: 10003` / `not authorized`),
CANCELLED otherwise; the rollback records appended are exactly those of
`_rollback_successful_legs` on the `M` succeeded legs — `M` records, each
flagged, for slice `N`, `qty = sliceQty`, one per leg index below `M` —
and the rollback orders placed are the inverse-direction orders of those
`M` legs for `sliceQty`; no execution record of any slice after `N` exists
(no later slice is attempted); and `slicesDone` ends at `N + 1`. -/
theorem twap_slice_failure_rollback (plan : TwapPlan)
    (resp rbResp : Nat → Nat → OrderResult) (prog : TwapProgress)
    (N M : Nat)
    (hrun : prog.state = TwapState.running)
    (hN : N < sliceCount plan)
    (hM : M < plan.legs.length)
    (hprior : ∀ s < N, ∀ j < plan.legs.length, (resp s j).success = true)
    (hMsucc : ∀ j < M, (resp N j).success = true)
    (hfail : (resp N M).success = false) :
    ((execute_twap plan resp rbResp prog).progress.state = failState (resp N M)) ∧
    ((execute_twap plan resp rbResp prog).progress.state = TwapState.failed ↔
      isAuthError (((resp N M).error_message).getD "") = true) ∧
    ((execute_twap plan resp rbResp prog).progress.state = TwapState.cancelled ↔
      ¬ isAuthError (((resp N M).error_message).getD "") = true) ∧
    ((execute_twap plan resp rbResp prog).execs.filter (fun e => e.is_rollback)
      = (rollback_successful_legs plan (N : Int)
          (expectedSuccLegs plan (resp N) M) (rbResp N)).1) ∧
    (((execute_twap plan resp rbResp prog).execs.filter
        (fun e => e.is_rollback)).length = M) ∧
    (∀ e ∈ (execute_twap plan resp rbResp prog).execs.filter (fun e => e.is_rollback),
      e.qty = plan.sliceQty ∧ e.sliceIndex = (N : Int) ∧ e.legIndex < M) ∧
    ((rollback_successful_legs plan (N : Int)
        (expectedSuccLegs plan (resp N) M) (rbResp N)).2
      = (plan.legs.take M).map (fun leg =>
          ⟨leg.symbol, leg.category, reverseSide leg.side, plan.sliceQty⟩)) ∧
    (∀ e ∈ (execute_twap plan resp rbResp prog).execs, e.sliceIndex ≤ (N : Int)) ∧
    ((execute_twap plan resp rbResp prog).progress.slicesDone = N + 1) := by
  obtain ⟨recs1, prog1, hrecs1, hmain⟩ :=
    twap_fail_main plan resp rbResp prog N M hrun hN hM hprior hMsucc hfail
  have hrb1 : (rollback_successful_legs plan (N : Int)
      (expectedSuccLegs plan (resp N) M) (rbResp N)).1
      = (expectedSuccLegs plan (resp N) M).map (fun li =>
          { planId := plan.planId, sliceIndex := (N : Int), legIndex := li.leg_index,
            orderId := ((rbResp N) li.leg_index).order_id,
            success := ((rbResp N) li.leg_index).success,
            price := ((rbResp N) li.leg_index).price, qty := plan.sliceQty,
            error := ((rbResp N) li.leg_index).error_message, is_rollback := true,
            original_order_id := li.order_id }) := rfl
  have hfilter : (execute_twap plan resp rbResp prog).execs.filter
      (fun e => e.is_rollback)
      = (rollback_successful_legs plan (N : Int)
          (expectedSuccLegs plan (resp N) M) (rbResp N)).1 := by
    rw [hmain]
    show (recs1 ++ _).filter _ = _
    rw [List.filter_append, List.filter_append, List.filter_cons]
    have h1 : recs1.filter (fun e => e.is_rollback) = [] :=
      List.filter_eq_nil_iff.mpr (fun e he => by simp [(hrecs1 e he).1])
    have h2 : ((List.enumFrom 0 (plan.legs.take M)).map
        (fun x => legRecord plan N x.1 (resp N x.1))).filter
          (fun e => e.is_rollback) = [] := by
      refine List.filter_eq_nil_iff.mpr ?_
      intro e he
      rcases List.mem_map.mp he with ⟨x, hx, rfl⟩
      simp [legRecord]
    rw [h1, h2, if_neg (by simp [legRecord])]
    by_cases hE : (expectedSuccLegs plan (resp N) M).isEmpty
    · rw [if_pos hE]
      have hnil : expectedSuccLegs plan (resp N) M = [] := by
        cases hx : expectedSuccLegs plan (resp N) M
        · rfl
        · rw [hx] at hE; simp at hE
      rw [hrb1, hnil]
      rfl
    · rw [if_neg hE]
      have hall : ∀ e ∈ (rollback_successful_legs plan (N : Int)
          (expectedSuccLegs plan (resp N) M) (rbResp N)).1,
          (fun e => e.is_rollback) e = true := by
        intro e he
        rw [hrb1] at he
        rcases List.mem_map.mp he with ⟨li, hli, rfl⟩
        rfl
      rw [List.filter_eq_self.mpr hall]
      simp
  have hstate : (execute_twap plan resp rbResp prog).progress.state
      = failState (resp N M) := by
    rw [hmain]
  refine ⟨hstate, ?_, ?_, hfilter, ?_, ?_, ?_, ?_, ?_⟩
  · rw [hstate]
    exact failState_eq_failed_iff (resp N M)
  · rw [hstate]
    exact failState_eq_cancelled_iff (resp N M)
  · rw [hfilter, hrb1, List.length_map]
    unfold expectedSuccLegs
    rw [List.length_map, List.enumFrom_length, List.length_take]
    omega
  · intro e he
    rw [hfilter, hrb1] at he
    rcases List.mem_map.mp he with ⟨li, hli, rfl⟩
    refine ⟨rfl, rfl, ?_⟩
    unfold expectedSuccLegs at hli
    rcases List.mem_map.mp hli with ⟨x, hx, rfl⟩
    have hb := List.mem_enumFrom
      (show (x.1, x.2) ∈ List.enumFrom 0 (plan.legs.take M) from by simpa using hx)
    have hlt := hb.2.1
    rw [List.length_take] at hlt
    show x.1 < M
    omega
  · show ((expectedSuccLegs plan (resp N) M).map _) = _
    unfold expectedSuccLegs
    rw [List.map_map]
    exact enumFrom_map_snd_fn
      (fun leg =>
        ({ symbol := leg.symbol, category := leg.category,
           side := reverseSide leg.side, qty := plan.sliceQty } : PlacedTwapOrder))
      0 (plan.legs.take M)
  · intro e he
    rw [hmain] at he
    rcases List.mem_append.mp he with he | he
    · exact le_of_lt ((hrecs1 e he).2)
    · rcases List.mem_append.mp he with he | he
      · rcases List.mem_map.mp he with ⟨x, hx, rfl⟩
        exact le_refl _
      · rcases List.mem_cons.mp he with he | he
        · subst he
          exact le_refl _
        · by_cases hE : (expectedSuccLegs plan (resp N) M).isEmpty
          · rw [if_pos hE] at he
            exact absurd he (List.not_mem_nil e)
          · rw [if_neg hE] at he
            rw [hrb1] at he
            rcases List.mem_map.mp he with ⟨li, hli, rfl⟩
            exact le_refl _
  · rw [hmain]


/-- The C2 witness oracle: slice 0 leg 0 succeeds, everything else fails
with a non-authorization error. -/
def c2resp : Nat → Nat → OrderResult := fun s j =>
  if s = 0 ∧ j = 0 then ⟨true, none, some "o1", none⟩
  else ⟨false, none, none, some "boom"⟩

/-- Witness for C2: on the two-leg 2×1 plan, when slice 0 leg 0 succeeds
and leg 1 fails with a non-authorization error, exactly one rollback
record is appended, the plan ends CANCELLED and `slicesDone = 1` — the
second slice never runs. -/
theorem twap_slice_failure_rollback_witness :
    ((execute_twap c10plan c2resp c2resp
        ⟨"p", 0, 2, 0, 2, TwapState.running⟩).execs.filter
      (fun e => e.is_rollback)).length = 1 ∧
    (execute_twap c10plan c2resp c2resp
        ⟨"p", 0, 2, 0, 2, TwapState.running⟩).progress.state
      = TwapState.cancelled ∧
    (execute_twap c10plan c2resp c2resp
        ⟨"p", 0, 2, 0, 2, TwapState.running⟩).progress.slicesDone = 1 ∧
    (∀ e ∈ (execute_twap c10plan c2resp c2resp
        ⟨"p", 0, 2, 0, 2, TwapState.running⟩).execs, e.sliceIndex ≤ (0 : Int)) := by
  have hsc : sliceCount c10plan = 2 := by
    unfold sliceCount c10plan
    norm_num
    rfl
  have h := twap_slice_failure_rollback c10plan c2resp c2resp
    ⟨"p", 0, 2, 0, 2, TwapState.running⟩ 0 1 rfl (by rw [hsc]; omega) (by decide)
    (fun s hs => absurd hs (Nat.not_lt_zero s))
    (by decide) (by decide)
  exact ⟨h.2.2.2.2.1, h.2.2.1.mpr (by decide), h.2.2.2.2.2.2.2.2,
    h.2.2.2.2.2.2.2.1⟩

end Arbitrade
